import Mathlib

/-!
Verification of the luatt host-side bridge (luatt.py, strip-comments.py,
file_pack.py) against its specification.

Byte strings are modelled as `List Nat` (each element one octet); text
strings as `List Char`.  Blocking reads on a file descriptor are modelled
by giving the decoder the whole stream of bytes that will ever arrive
before EOF: a read that would block past the end of that stream returns
`none`, matching the `os.read() == b'' -> return None` paths in the code.
-/

namespace Luatt

abbrev Bytes := List Nat

def pipeB : Nat := 124
def ampB : Nat := 38
def nlB : Nat := 10

/-- `is_clean` (luatt.py).  Empty fields are clean (`if not b: return True`);
otherwise the field must not start with `&` and every byte must be in
0x20..0x7E and distinct from `|`. -/
def is_clean (b : Bytes) : Bool :=
  match b with
  | [] => true
  | c :: _ =>
    if c == ampB then false
    else b.all (fun ch => !(decide (ch < 32) || decide (ch > 126) || ch == pipeB))

/-- Decimal digits of `n`, most significant first, as ASCII bytes.  The
fuel argument only drives the recursion; any `fuel ≥ n` gives the exact
decimal representation. -/
def decDigits (fuel n : Nat) : Bytes :=
  match fuel with
  | 0 => [n % 10 + 48]
  | f + 1 => if n < 10 then [n + 48] else decDigits f (n / 10) ++ [n % 10 + 48]

/-- Decimal representation of a natural number, as ASCII bytes
(the f-string interpolation of `len(bstr)` in `escape_arg`). -/
def decRepr (n : Nat) : Bytes := decDigits n n

/-- `escape_arg` (luatt.py): clean fields pass through with no trailer, raw
fields are replaced by `&<decimal length>` with the field as trailer. -/
def escape_arg (b : Bytes) : Bytes × Option Bytes :=
  if is_clean b then (b, none) else (ampB :: decRepr b.length, b)

/-- The spec's characterisation of a clean field (non-empty, bytes in
0x20..0x7E, no `|`, not starting with `&`), amended to match the code: the
empty field also counts as clean. -/
def cleanSpec (b : Bytes) : Bool :=
  b.isEmpty || (!(b.head? == some ampB)
    && b.all (fun ch => decide (32 ≤ ch) && decide (ch ≤ 126) && !(ch == pipeB)))

/-- `write_command` (luatt.py): header line of `|`-joined fields (the token
verbatim, each argument via `escape_arg`), then each raw trailer, all
`\n`-terminated (`b'\n'.join(out)` with a final empty element). -/
def write_command (token : Bytes) (args : List Bytes) : Bytes :=
  let esc := args.map escape_arg
  let line := List.intercalate [pipeB] (token :: esc.map Prod.fst)
  List.intercalate [nlB] (line :: (esc.filterMap Prod.snd ++ [[]]))

/-- ASCII whitespace accepted (and stripped) by Python `int()`. -/
def isPyWsB (c : Nat) : Bool :=
  c == 32 || c == 9 || c == 10 || c == 13 || c == 11 || c == 12

def isDigitB (c : Nat) : Bool := decide (48 ≤ c) && decide (c ≤ 57)

/-- Digit tail of a Python integer literal: digits with single underscores
allowed between digits. -/
def pyDigitsVal : Bytes → Nat → Option Nat
  | [], acc => some acc
  | c :: cs, acc =>
    if isDigitB c then pyDigitsVal cs (10 * acc + (c - 48))
    else if c == 95 then
      match cs with
      | d :: ds => if isDigitB d then pyDigitsVal ds (10 * acc + (d - 48)) else none
      | [] => none
    else none

/-- Nonempty digit run (first char must be a digit). -/
def pyIntDigits (b : Bytes) : Option Nat :=
  match b with
  | [] => none
  | c :: cs => if isDigitB c then pyDigitsVal cs (c - 48) else none

/-- Python `int(bytes)`: strip ASCII whitespace, optional sign, decimal
digits (underscores allowed between digits).  `none` models `ValueError`. -/
def pyInt (b : Bytes) : Option Int :=
  let t1 := b.dropWhile isPyWsB
  let t2 := (t1.reverse.dropWhile isPyWsB).reverse
  match t2 with
  | [] => none
  | c :: r =>
    if c == 43 then (pyIntDigits r).map (fun n => (n : Int))
    else if c == 45 then (pyIntDigits r).map (fun n => -(n : Int))
    else (pyIntDigits (c :: r)).map (fun n => (n : Int))

/-- Python slice `l[:i]`, including negative `i`. -/
def pySliceTo (l : Bytes) (i : Int) : Bytes :=
  if 0 ≤ i then l.take i.toNat else l.take (l.length - i.natAbs)

/-- Python slice `l[i:]`, including negative `i`. -/
def pySliceFrom (l : Bytes) (i : Int) : Bytes :=
  if 0 ≤ i then l.drop i.toNat else l.drop (l.length - i.natAbs)

/-- `read_packet_line` (luatt.py) over the whole future input stream:
split at the first newline; if the stream ends with no newline the reader
sees EOF and returns `None`. -/
def read_packet_line (s : Bytes) : Option (Bytes × Bytes) :=
  if nlB ∈ s then
    some (s.takeWhile (fun c => !(c == nlB)), (s.dropWhile (fun c => !(c == nlB))).tail)
  else none

/-- `read_packet_bytes` (luatt.py): take `n` bytes and skip the following
newline.  With `n + 1` bytes already buffered this is
`(partial_buf[:n], partial_buf[n+1:])`; when the stream cannot supply
`n + 1` bytes the reader sees EOF and returns `None`.  `n` is an `Int`
because `int(f[1:])` can be negative, in which case Python's negative
slicing applies (the buffered-input branch always fires). -/
def read_packet_bytes (n : Int) (s : Bytes) : Option (Bytes × Bytes) :=
  if n + 1 ≤ (s.length : Int) then some (pySliceTo s n, pySliceFrom s (n + 1))
  else none

/-- Result of `read_packet`: a decoded field list plus unconsumed input,
EOF (`return None` paths), or an uncaught `ValueError` from `int(f[1:])`. -/
inductive PacketResult where
  | ok (fields : List Bytes) (rest : Bytes)
  | eof
  | exn
deriving DecidableEq, Repr

/-- `bytes.split(b'|')`: split on every `|`, keeping empty pieces. -/
def splitPipe (b : Bytes) : List Bytes := b.splitOn pipeB

/-- The field loop of `read_packet`: for each header subfield starting with
`&`, parse the decimal count with `int` (uncaught `ValueError` if it is
malformed) and read that many trailer bytes plus a newline. -/
def readFields : List Bytes → Bytes → List Bytes → PacketResult
  | [], s, acc => .ok acc.reverse s
  | f :: fs, s, acc =>
    if f.take 1 == [ampB] then
      match pyInt f.tail with
      | none => .exn
      | some n =>
        match read_packet_bytes n s with
        | none => .eof
        | some (v, s1) => readFields fs s1 (v :: acc)
    else readFields fs s (f :: acc)

/-- `read_packet` (luatt.py): read the header line, split on `|`, resolve
`&N` placeholders from the trailer bytes. -/
def read_packet (s : Bytes) : PacketResult :=
  match read_packet_line s with
  | none => .eof
  | some (line, rest) => readFields (splitPipe line) rest []

/-- What one iteration of the `read_serial` thread loop does with the
stream: process a decoded packet, quit cleanly on EOF (set `Quit`, signal
the main thread), or die with the uncaught exception (which sets no flag
and signals nobody). -/
inductive ReaderEvent where
  | processed (fields : List Bytes) (rest : Bytes)
  | quit
  | raised
deriving DecidableEq, Repr

/-- One iteration of `read_serial` (luatt.py). -/
def read_serial_iter (s : Bytes) : ReaderEvent :=
  match read_packet s with
  | .ok f r => .processed f r
  | .eof => .quit
  | .exn => .raised

end Luatt

/-!
Comment stripper (strip-comments.py; the same regex also appears verbatim
in luatt.py and, over bytes, in file_pack.py).  The Python pattern

  `'(?:\\.|[^'])*'`
  `|"(?:\\.|[^"])*"`
  `|[ \t]*(--)?\[(=*)\[(?s:.)*?\]\2\][ \t]*`
  `|[ \t]*(--)(?:\[=*)?(?:[^[=\n].*)?$`
  `|^([ \t]+)`
  `|([ \t]+)$`
  `|([ \t]{2,})`   (re.MULTILINE)

is hand-compiled below, alternative by alternative, preserving Python's
leftmost-first alternation and backtracking order.  Greedy sub-patterns
whose failure provably forces the whole alternative to fail (for example
the leading `[ \t]*`, whose continuation can never start with a space or
tab) are compiled to their deterministic `takeWhile` form.
-/

namespace StripC

abbrev Str := List Char

def isWsCh (c : Char) : Bool := c == ' ' || c == '\t'

/-- One regex match: the matched text and the six captured groups of the
pattern (`None` = group did not participate in the match). -/
structure MatchData where
  text : Str
  g1 : Option Str
  g2 : Option Str
  g3 : Option Str
  g4 : Option Str
  g5 : Option Str
  g6 : Option Str
deriving Repr

/-- Python truthiness of `m.group(i)`: a participating, non-empty group. -/
def truthy : Option Str → Bool
  | none => false
  | some l => !l.isEmpty

/-- `Pat_not_newlines.sub('', s)` for `[^\n]+`: delete every run of
non-newline characters, i.e. keep exactly the newlines. -/
def keepNewlines (s : Str) : Str := s.filter (fun c => c == '\n')

/-- `only_newlines` (strip-comments.py): the replacement for one match. -/
def only_newlines (m : MatchData) : Str :=
  if truthy m.g1 then
    (if (keepNewlines m.text).isEmpty then [' '] else keepNewlines m.text)
  else if truthy m.g3 then keepNewlines m.text
  else if truthy m.g4 || truthy m.g5 then []
  else if truthy m.g6 then [' ']
  else m.text

/-- Star body of the quoted-string alternatives, after the opening quote:
`(?:\\.|[^q])*q` with Python's backtracking order — prefer `\\.` (a
backslash and any non-newline), then `[^q]`, and exit the star to the
closing quote only when the preferred continuations fail.  Returns the
consumed text (closing quote included) and the rest. -/
def quoteBody (q : Char) : Str → Option (Str × Str)
  | [] => none
  | [c] => if c == q then some ([c], []) else none
  | c :: d :: ds =>
    if c == q then some ([c], d :: ds)
    else if c == '\\' then
      (if d == '\n' then
        match quoteBody q (d :: ds) with
        | some (b, r) => some (c :: b, r)
        | none => none
      else
        match quoteBody q ds with
        | some (b, r) => some (c :: d :: b, r)
        | none =>
          match quoteBody q (d :: ds) with
          | some (b, r) => some (c :: b, r)
          | none => none)
    else
      match quoteBody q (d :: ds) with
      | some (b, r) => some (c :: b, r)
      | none => none

/-- Alternatives 1 and 2: a complete quoted string literal. -/
def matchQuoted (q : Char) : Str → Option (Str × Str)
  | [] => none
  | c :: cs =>
    if c == q then
      match quoteBody q cs with
      | some (b, r) => some (c :: b, r)
      | none => none
    else none

def wsTake (s : Str) : Str := s.takeWhile isWsCh
def wsDrop (s : Str) : Str := s.dropWhile isWsCh
def eqTake (s : Str) : Str := s.takeWhile (fun c => c == '=')
def eqDrop (s : Str) : Str := s.dropWhile (fun c => c == '=')

/-- Strip an expected prefix, or fail. -/
def stripPfx : Str → Str → Option Str
  | [], r => some r
  | _ :: _, [] => none
  | p :: ps, c :: cs => if c == p then stripPfx ps cs else none

/-- Match the closing delimiter `\]\2\]` (with captured `=`-run `eqs`) at
the head of `l`. -/
def tryClose (eqs : Str) (l : Str) : Option (Str × Str) :=
  match l with
  | [] => none
  | c :: l1 =>
    if c == ']' then
      match stripPfx eqs l1 with
      | none => none
      | some [] => none
      | some (c2 :: l3) =>
        if c2 == ']' then some (']' :: (eqs ++ [']']), l3) else none
    else none

/-- The lazy `(?s:.)*?\]\2\]`: consume as few characters as possible
(newlines included, dot-all) until the closing delimiter matches. -/
def lazyClose (eqs : Str) : Str → Option (Str × Str)
  | [] =>
    (match tryClose eqs [] with
     | some (cl, r) => some (cl, r)
     | none => none)
  | c :: cs =>
    match tryClose eqs (c :: cs) with
    | some (cl, r) => some (cl, r)
    | none =>
      match lazyClose eqs cs with
      | some (b, r) => some (c :: b, r)
      | none => none

/-- `\[(=*)\[(?s:.)*?\]\2\][ \t]*`: the bracketed core of alternative 3,
including the trailing whitespace run.  Returns (consumed, `=`-run
(group 2), rest).  Backtracking into a shorter `=*` run cannot succeed
(the following character would be `=`, never `[`), so the greedy run is
compiled deterministically. -/
def bracketCore (s : Str) : Option (Str × Str × Str) :=
  match s with
  | [] => none
  | c :: s1 =>
    if c == '[' then
      (let eqs := eqTake s1
       match eqDrop s1 with
       | [] => none
       | c2 :: s3 =>
         if c2 == '[' then
           match lazyClose eqs s3 with
           | some (body, r) =>
             some ('[' :: (eqs ++ '[' :: (body ++ wsTake r)), eqs, wsDrop r)
           | none => none
         else none)
    else none

/-- Alternative 3 with the optional `(--)?` not taken: the long-bracket
string-literal case (group 1 unset, group 2 = the `=`-run). -/
def longBracketNoDash (ws1 s1 : Str) : Option (MatchData × Str) :=
  match bracketCore s1 with
  | some (core, eqs, r) =>
    some (⟨ws1 ++ core, none, some eqs, none, none, none, none⟩, r)
  | none => none

/-- Alternative 3: `[ \t]*(--)?\[(=*)\[(?s:.)*?\]\2\][ \t]*`.  When the
bracket fails after consuming `--`, Python backtracks to the empty
`(--)?`; the retry is kept although it must then fail on the `-`. -/
def matchLongBracket (s : Str) : Option (MatchData × Str) :=
  let ws1 := wsTake s
  match wsDrop s with
  | c :: d :: s2 =>
    if c == '-' && d == '-' then
      match bracketCore s2 with
      | some (core, eqs, r) =>
        some (⟨ws1 ++ '-' :: '-' :: core, some ['-', '-'], some eqs, none, none, none, none⟩, r)
      | none => longBracketNoDash ws1 (c :: d :: s2)
    else longBracketNoDash ws1 (c :: d :: s2)
  | s1 => longBracketNoDash ws1 s1

/-- `(?:[^[=\n].*)?$` of alternative 4: optionally a character other than
`[`, `=`, newline followed by the greedy `.*` (to end of line), then the
MULTILINE `$` (end of input or before a newline). -/
def bodyToEol : Str → Option (Str × Str)
  | [] => some ([], [])
  | c :: cs =>
    if c == '[' || c == '=' then none
    else if c == '\n' then some ([], c :: cs)
    else
      some (c :: cs.takeWhile (fun x => !(x == '\n')), cs.dropWhile (fun x => !(x == '\n')))

/-- Alternative 4 with the optional `\[=*` not taken: `--` followed by
`(?:[^[=\n].*)?$`. -/
def shortCommentNoBracket (ws1 s2 : Str) : Option (MatchData × Str) :=
  match bodyToEol s2 with
  | some (b, r) =>
    some (⟨ws1 ++ '-' :: '-' :: b, none, none, some ['-', '-'], none, none, none⟩, r)
  | none => none

/-- Alternative 4: `[ \t]*(--)(?:\[=*)?(?:[^[=\n].*)?$`.  When the body
fails after `\[=*`, Python backtracks through shorter `=`-runs (each then
sees `=` and fails) down to skipping the optional `\[=*`; only the final
retry at the `[` itself is kept, the intermediate ones provably fail. -/
def matchShortComment (s : Str) : Option (MatchData × Str) :=
  let ws1 := wsTake s
  match wsDrop s with
  | c :: d :: s2 =>
    if c == '-' && d == '-' then
      match s2 with
      | e :: s3 =>
        if e == '[' then
          (let eqs := eqTake s3
           match bodyToEol (eqDrop s3) with
           | some (b, r) =>
             some (⟨ws1 ++ '-' :: '-' :: '[' :: (eqs ++ b), none, none, some ['-', '-'],
               none, none, none⟩, r)
           | none => shortCommentNoBracket ws1 s2)
        else shortCommentNoBracket ws1 s2
      | [] => shortCommentNoBracket ws1 []
    else none
  | _ => none

/-- Alternative 5: `^([ \t]+)` (only at a MULTILINE line start). -/
def matchWsBol (s : Str) : Option (MatchData × Str) :=
  let ws := wsTake s
  if ws.isEmpty then none
  else some (⟨ws, none, none, none, some ws, none, none⟩, wsDrop s)

/-- Alternative 6: `([ \t]+)$`.  Backtracking into a shorter run cannot
help (`$` would then face a space or tab), so the greedy run is compiled
deterministically with a single end-of-line check. -/
def matchWsEol (s : Str) : Option (MatchData × Str) :=
  let ws := wsTake s
  if ws.isEmpty then none
  else
    match wsDrop s with
    | [] => some (⟨ws, none, none, none, none, some ws, none⟩, [])
    | c :: cs =>
      if c == '\n' then some (⟨ws, none, none, none, none, some ws, none⟩, c :: cs)
      else none

/-- Alternative 7: `([ \t]{2,})`. -/
def matchWsMid (s : Str) : Option (MatchData × Str) :=
  let ws := wsTake s
  if ws.length < 2 then none
  else some (⟨ws, none, none, none, none, none, some ws⟩, wsDrop s)

/-- One attempt of the full alternation at the current position, in
Python's leftmost-first order. -/
def tryMatchAt (bol : Bool) (s : Str) : Option (MatchData × Str) :=
  match matchQuoted '\'' s with
  | some (t, r) => some (⟨t, none, none, none, none, none, none⟩, r)
  | none =>
    match matchQuoted '"' s with
    | some (t, r) => some (⟨t, none, none, none, none, none, none⟩, r)
    | none =>
      match matchLongBracket s with
      | some m => some m
      | none =>
        match matchShortComment s with
        | some m => some m
        | none =>
          match (if bol then matchWsBol s else none) with
          | some m => some m
          | none =>
            match matchWsEol s with
            | some m => some m
            | none => matchWsMid s

/-- Is the next scan position a MULTILINE line start, given the text just
consumed and the previous flag? -/
def bolAfter (t : Str) (bol : Bool) : Bool :=
  match t.getLast? with
  | some c => c == '\n'
  | none => bol

/-- Fuel-indexed `lua_comments.sub(only_newlines, ·)`: scan left to right,
replace each leftmost match, copy unmatched characters.  Every match of
the pattern consumes at least one character, so any `fuel ≥ s.length`
computes the exact substitution. -/
def subLuaF (fuel : Nat) (s : Str) (bol : Bool) : Str :=
  match fuel with
  | 0 => []
  | f + 1 =>
    match tryMatchAt bol s with
    | some (m, r) => only_newlines m ++ subLuaF f r (bolAfter m.text bol)
    | none =>
      match s with
      | [] => []
      | c :: cs => c :: subLuaF f cs (c == '\n')

/-- `strip_lua_comments` (strip-comments.py). -/
def strip_lua_comments (s : Str) : Str := subLuaF s.length s true

/-- Newline count of a string. -/
def nlCount (s : Str) : Nat := s.count '\n'

end StripC

/-!
### Router dispatch (`process_serial_packet`, luatt.py)

`process_serial_packet` receives one decoded frame (a list of byte
fields).  Frames with fewer than two fields are log text and are
dropped.  The second field selects one of the MQTT verbs
`pub`/`sub`/`unsub`, each of which dispatches to the bus helper and
`return`s immediately.  Any other frame is routed by its token
(field 0): if the token has a queue registered in `QS` the frame is
enqueued there, otherwise the non-token fields, joined by `|`, are
written to the default evaluator output; afterwards the frame is
re-encoded with `write_command` to every attached downstream client.
`coerce_string` agrees with byte equality on the verbs and tokens the
program compares, so the model performs the comparisons on the raw
byte fields.  The model records the externally visible effects of a
single call.
-/

namespace Luatt

def pubB : Bytes := [112, 117, 98]

def subB : Bytes := [115, 117, 98]

def unsubB : Bytes := [117, 110, 115, 117, 98]

/-- Externally visible effects of one `process_serial_packet` call:
which MQTT dispatch ran (if any), the frame enqueued on a pending
request queue, the body written to the default evaluator output (the
non-token fields joined by `|`), and the `(fd, bytes)` writes broadcast
to downstream clients. -/
structure RouterEffects where
  busPub : Option (List Bytes)
  busSub : Option (List Bytes)
  busUnsub : Option (List Bytes)
  enqueued : Option (Bytes × List Bytes)
  printed : Option Bytes
  broadcasts : List (Nat × Bytes)
deriving Repr, DecidableEq

/-- The no-effect result (the early `return`s). -/
def noEffects : RouterEffects := ⟨none, none, none, none, none, []⟩

/-- `process_serial_packet` (luatt.py).  `qs` lists the tokens
registered in `QS`, `downstreams` the attached downstream file
descriptors.  The `pub`/`sub`/`unsub` branches `return` before the
downstream broadcast loop is reached. -/
def process_serial_packet (qs : List Bytes) (downstreams : List Nat)
    (packet : List Bytes) : RouterEffects :=
  match packet with
  | [] => noEffects
  | [_] => noEffects
  | t :: c :: rest =>
    if c == pubB then { noEffects with busPub := some (t :: c :: rest) }
    else if c == subB then { noEffects with busSub := some (t :: c :: rest) }
    else if c == unsubB then { noEffects with busUnsub := some (t :: c :: rest) }
    else
      let base :=
        if t ∈ qs then { noEffects with enqueued := some (t, t :: c :: rest) }
        else { noEffects with printed := some (List.intercalate [pipeB] (c :: rest)) }
      { base with
          broadcasts := downstreams.map (fun d => (d, write_command t (c :: rest))) }

end Luatt

/-!
### The `!load` command (`cmd_load`, luatt.py)

`cmd_load` processes its arguments in order.  A `.zip`/`.luaz`
argument is handed to `load_luaz`, a `.cmd` argument to
`load_loader_cmd`, and anything else is treated as a bare Lua source:
the file is opened, at most `100 * 1024` characters are read, and
`load_data` strips comments and sends a `load`/`compile` request.

The filesystem is modelled as an association list of
`(path, contents)` pairs; a missing path stands for `open()` or
`read()` raising `OSError`.  Only the bare-file branch catches
`OSError` — it logs the path and then `return`s from `cmd_load` — while
an `OSError` inside `load_loader_cmd` and a missing archive propagate
out of `cmd_load` uncaught (`crashed`).  The interior of zip archives
lies outside the modelled filesystem, so a successfully opened archive
is recorded as an opaque `zipArchive` step.  `load_data` records the
observable request `(cmd, name, stripped data)`; token bookkeeping and
the reply wait are elided.
-/

namespace Luatt

abbrev PStr := List Char

abbrev FS := List (PStr × PStr)

/-- Reading a file: association-list lookup; `none` models `OSError`. -/
def fsRead (fs : FS) (p : PStr) : Option PStr :=
  (fs.find? (fun e => e.1 == p)).map (fun e => e.2)

/-- `os.path.basename`: the part after the last `/`. -/
def basename (p : PStr) : PStr :=
  (p.reverse.takeWhile (fun c => !(c == '/'))).reverse

/-- `os.path.split(p)[0]`: the part before the last `/`, trailing
slashes removed unless it consists only of slashes. -/
def dirname (p : PStr) : PStr :=
  let d := p.take (p.length - (basename p).length)
  if d.all (fun c => c == '/') then d
  else (d.reverse.dropWhile (fun c => c == '/')).reverse

/-- `os.path.join d f` (POSIX, two components). -/
def path_join (d f : PStr) : PStr :=
  if f.head? == some '/' then f
  else if d.isEmpty then f
  else if d.getLast? == some '/' then d ++ f
  else d ++ '/' :: f

/-- `os.path.splitext`: split off the extension at the last `.` of the
base name, unless every character of the base name before that dot is
itself a dot (so `.bashrc` has no extension). -/
def splitext (p : PStr) : PStr × PStr :=
  let base := basename p
  let extLen := (base.reverse.takeWhile (fun c => !(c == '.'))).length
  if extLen == base.length then (p, [])
  else if (base.take (base.length - extLen - 1)).all (fun c => c == '.') then (p, [])
  else (p.take (p.length - extLen - 1), p.drop (p.length - extLen - 1))

/-- `split_lua_name` (luatt.py): a `NAME=PATH` argument splits at the
first `=` when the name part has no `/`; otherwise the name is the
path's base name without its extension. -/
def split_lua_name (s : PStr) : PStr × PStr :=
  if s.contains '=' && !((s.takeWhile (fun c => !(c == '='))).contains '/') then
    (s.takeWhile (fun c => !(c == '=')), (s.dropWhile (fun c => !(c == '='))).drop 1)
  else ((splitext (basename s)).1, s)

/-- Whitespace stripped by Python `str.strip()`. -/
def isPyWsC (c : Char) : Bool :=
  c == ' ' || c == '\t' || c == '\n' || c == '\r' || c == '\x0b' || c == '\x0c'

def pyStripWs (s : PStr) : PStr :=
  ((s.dropWhile isPyWsC).reverse.dropWhile isPyWsC).reverse

/-- One observable step of `cmd_load`: a `load`/`compile` request sent
to the device, or the opaque processing of a zip archive. -/
inductive LoadStep where
  | loadReq (cmd name data : PStr)
  | zipArchive (path : PStr)
deriving Repr, DecidableEq

def loadW : PStr := ['l', 'o', 'a', 'd']

def compileW : PStr := ['c', 'o', 'm', 'p', 'i', 'l', 'e']

/-- `load_data` (luatt.py): strips comments from the data and sends
`token|cmd|name|data`; the recorded step keeps the command word, the
name and the stripped data. -/
def load_data (name data : PStr) (compile : Bool) : LoadStep :=
  LoadStep.loadReq (if compile then compileW else loadW) name
    (StripC.strip_lua_comments data)

/-- The loop body of `load_loader_cmd`: each non-blank stripped line
names a source file, read in full (`open(src_path).read()`, uncapped);
a missing source raises an uncaught `OSError` (`none`). -/
def loaderLines (fs : FS) (dir : PStr) (compile : Bool) :
    List PStr → Option (List LoadStep)
  | [] => some []
  | line :: ls =>
    let l := pyStripWs line
    if l.isEmpty then loaderLines fs dir compile ls
    else
      match fsRead fs (path_join dir (split_lua_name l).2) with
      | none => none
      | some data =>
        (loaderLines fs dir compile ls).map
          (fun steps => load_data (split_lua_name l).1 data compile :: steps)

/-- `load_loader_cmd` (luatt.py): read the manifest (an uncaught
`OSError` if it is missing) and load each listed file. -/
def load_loader_cmd (fs : FS) (path : PStr) (compile : Bool) :
    Option (List LoadStep) :=
  match fsRead fs path with
  | none => none
  | some text => loaderLines fs (dirname path) compile (text.splitOn '\n')

/-- Result of `cmd_load`: the steps performed, the paths logged by the
bare-file `except OSError` handler, and whether an exception escaped
`cmd_load`. -/
structure LoadResult where
  steps : List LoadStep
  errLogs : List PStr
  crashed : Bool
deriving Repr, DecidableEq

def zipE : PStr := ['.', 'z', 'i', 'p']

def luazE : PStr := ['.', 'l', 'u', 'a', 'z']

def cmdE : PStr := ['.', 'c', 'm', 'd']

def luaE : PStr := ['.', 'l', 'u', 'a']

/-- The argument loop of `cmd_load`.  The bare-file `except OSError`
branch logs the path and then `return`s: the remaining arguments are
not attempted. -/
def cmdLoadArgs (fs : FS) (compile : Bool) : List PStr → LoadResult
  | [] => ⟨[], [], false⟩
  | arg :: args =>
    if (splitext arg).2 == zipE || (splitext arg).2 == luazE then
      match fsRead fs arg with
      | none => ⟨[], [], true⟩
      | some _ =>
        let rest := cmdLoadArgs fs compile args
        ⟨LoadStep.zipArchive arg :: rest.steps, rest.errLogs, rest.crashed⟩
    else if (splitext arg).2 == cmdE then
      match load_loader_cmd fs arg compile with
      | none => ⟨[], [], true⟩
      | some steps =>
        let rest := cmdLoadArgs fs compile args
        ⟨steps ++ rest.steps, rest.errLogs, rest.crashed⟩
    else
      match fsRead fs (split_lua_name arg).2 with
      | none => ⟨[], [(split_lua_name arg).2], false⟩
      | some data =>
        let rest := cmdLoadArgs fs compile args
        ⟨load_data (split_lua_name arg).1 (data.take (100 * 1024)) compile
            :: rest.steps,
          rest.errLogs, rest.crashed⟩

/-- `cmd_load` (luatt.py): `cmd` is the shell-split command line
(`cmd[0]` is `!load` or `!compile`); fewer than two words only logs
an error. -/
def cmd_load (fs : FS) (cmd : List PStr) (compile : Bool) : LoadResult :=
  if cmd.length < 2 then ⟨[], [], false⟩
  else cmdLoadArgs fs compile cmd.tail

end Luatt

/-!
### The packer's data emitter (`escaped_chars`, file_pack.py)

`Fill_Escapes` builds a table in which every character of a plain
printable alphabet maps to itself and eleven characters map to
two-character backslash escapes; `escaped_chars` yields the table
entry for each data byte, or a three-digit octal escape `\NNN` for
bytes outside the table.  `decodeC` is the C string-literal reading
function used to state the round trip: a backslash followed by up to
three octal digits (maximal munch), the named single-character escapes
of C, and plain characters standing for their own code points.
-/

namespace FilePack

/-- The `plain` alphabet of `Fill_Escapes` (file_pack.py):
`string.ascii_letters + string.digits` plus the listed punctuation. -/
def plainChars : List Char :=
  ("abcdefghijklmnopqrstuvwxyzABCDEFGHIJKLMNOPQRSTUVWXYZ0123456789" ++
    " !#$%&()*+,-./:;<=>@[]^_`\x7b|\x7d~.").toList

/-- The `Escapes` table (file_pack.py): plain characters map to
themselves, eleven characters to two-character backslash escapes;
other byte values are absent. -/
def Escapes (b : Nat) : Option (List Char) :=
  if b == 34 then some ['\\', '\"']
  else if b == 39 then some ['\\', '\'']
  else if b == 63 then some ['\\', '?']
  else if b == 92 then some ['\\', '\\']
  else if b == 7 then some ['\\', 'a']
  else if b == 8 then some ['\\', 'b']
  else if b == 12 then some ['\\', 'f']
  else if b == 10 then some ['\\', 'n']
  else if b == 13 then some ['\\', 'r']
  else if b == 9 then some ['\\', 't']
  else if b == 11 then some ['\\', 'v']
  else match plainChars.find? (fun c => c.toNat == b) with
    | some c => some [c]
    | none => none

/-- The octal digit character of `n % 8`, as produced by the
zero-padded format `%03o`. -/
def octDigitChar (n : Nat) : Char :=
  if n == 0 then '0' else if n == 1 then '1' else if n == 2 then '2'
  else if n == 3 then '3' else if n == 4 then '4' else if n == 5 then '5'
  else if n == 6 then '6' else '7'

/-- Three-digit zero-padded octal escape of a byte. -/
def oct3 (b : Nat) : List Char :=
  ['\\', octDigitChar (b / 64 % 8), octDigitChar (b / 8 % 8), octDigitChar (b % 8)]

/-- One yield of `escaped_chars`: the table entry if the byte is
present, the octal escape otherwise. -/
def escByte (b : Nat) : List Char :=
  match Escapes b with
  | some e => e
  | none => oct3 b

/-- `escaped_chars` (file_pack.py): the sequence of string pieces the
emitter yields for the file's data bytes. -/
def escaped_chars (data : List Nat) : List (List Char) := data.map escByte

/-- Octal digit test for the decoder. -/
def isOctDigit (c : Char) : Bool := decide (48 ≤ c.toNat) && decide (c.toNat ≤ 55)

def octVal (c : Char) : Nat := c.toNat - 48

/-- Named C escape characters and their byte values. -/
def escCharVal (d : Char) : Option Nat :=
  if d == 'a' then some 7 else if d == 'b' then some 8
  else if d == 'f' then some 12 else if d == 'n' then some 10
  else if d == 'r' then some 13 else if d == 't' then some 9
  else if d == 'v' then some 11 else if d == '\"' then some 34
  else if d == '\'' then some 39 else if d == '?' then some 63
  else if d == '\\' then some 92 else none

/-- C string-literal contents decoder, fuel-based (each step consumes
at least one character, so `s.length` fuel always suffices): octal
escapes by maximal munch of up to three digits, named escapes, and
plain characters read as their code points. -/
def decodeF (fuel : Nat) (s : List Char) : Option (List Nat) :=
  match fuel with
  | 0 =>
    match s with
    | [] => some []
    | _ :: _ => none
  | fuel + 1 =>
    match s with
    | [] => some []
    | c :: cs =>
      if c == '\\' then
        match cs with
        | [] => none
        | d :: ds =>
          if isOctDigit d then
            match ds with
            | [] => some [octVal d]
            | e :: ds2 =>
              if isOctDigit e then
                match ds2 with
                | [] => some [8 * octVal d + octVal e]
                | f :: ds3 =>
                  if isOctDigit f then
                    (decodeF fuel ds3).map
                      (fun t => (64 * octVal d + 8 * octVal e + octVal f) :: t)
                  else (decodeF fuel ds2).map (fun t => (8 * octVal d + octVal e) :: t)
              else (decodeF fuel ds).map (fun t => octVal d :: t)
          else
            match escCharVal d with
            | some v => (decodeF fuel ds).map (fun t => v :: t)
            | none => none
      else (decodeF fuel cs).map (fun t => c.toNat :: t)

/-- C string-literal contents decoder. -/
def decodeC (s : List Char) : Option (List Nat) := decodeF s.length s

/-- A single plain character of the packer's literal alphabet. -/
def isSinglePlain (e : List Char) : Bool :=
  match e with
  | [c] => plainChars.contains c
  | _ => false

/-- A three-digit octal escape. -/
def isOct3Esc (e : List Char) : Bool :=
  match e with
  | [a, d1, d2, d3] => a == '\\' && isOctDigit d1 && isOctDigit d2 && isOctDigit d3
  | _ => false

/-- A two-character named escape. -/
def isNamedEsc (e : List Char) : Bool :=
  match e with
  | [a, d] => a == '\\' && (escCharVal d).isSome
  | _ => false

/-- Decoding invariant of one emitted piece `e` for source byte `b`:
the piece is a plain non-backslash character carrying code point `b`,
a named escape decoding to `b`, or three octal digits with value `b`.
A decidable predicate, checked for every byte below 256. -/
def escShapeOK (e : List Char) (b : Nat) : Bool :=
  match e with
  | [c] => !(c == '\\') && (c.toNat == b)
  | [a, d] => (a == '\\') && !(isOctDigit d) && (escCharVal d == some b)
  | [a, d1, d2, d3] =>
    (a == '\\') && isOctDigit d1 && isOctDigit d2 && isOctDigit d3
      && (64 * octVal d1 + 8 * octVal d2 + octVal d3 == b)
  | _ => false

end FilePack

-- ======================================================================
-- Lemmas and claim theorems
-- ======================================================================

namespace Luatt

lemma decDigits_mem_digit {fuel n c : Nat} (hc : c ∈ decDigits fuel n) :
    48 ≤ c ∧ c ≤ 57 := by
  induction fuel generalizing n with
  | zero =>
    simp only [decDigits, List.mem_singleton] at hc
    omega
  | succ f ih =>
    simp only [decDigits] at hc
    split at hc
    · simp only [List.mem_singleton] at hc
      omega
    · rcases List.mem_append.1 hc with h | h
      · exact ih h
      · simp only [List.mem_singleton] at h
        omega

lemma decDigits_ne_nil (fuel n : Nat) : decDigits fuel n ≠ [] := by
  cases fuel with
  | zero => simp [decDigits]
  | succ f => simp only [decDigits]; split <;> simp

lemma pyDigitsVal_append_digits (xs ys : Bytes) (acc : Nat)
    (h : ∀ c ∈ xs, isDigitB c = true) :
    pyDigitsVal (xs ++ ys) acc
      = pyDigitsVal ys (xs.foldl (fun a c => 10 * a + (c - 48)) acc) := by
  induction xs generalizing acc with
  | nil => simp [pyDigitsVal]
  | cons c cs ih =>
    have hc : isDigitB c = true := h c (by simp)
    have hstep : pyDigitsVal (c :: (cs ++ ys)) acc
        = pyDigitsVal (cs ++ ys) (10 * acc + (c - 48)) := by
      rw [pyDigitsVal.eq_def]
      simp [hc]
    rw [List.cons_append, hstep, List.foldl_cons]
    exact ih _ (fun d hd => h d (by simp [hd]))

lemma pyDigitsVal_digits_eq (xs : Bytes) (acc : Nat)
    (h : ∀ c ∈ xs, isDigitB c = true) :
    pyDigitsVal xs acc = some (xs.foldl (fun a c => 10 * a + (c - 48)) acc) := by
  have h2 := pyDigitsVal_append_digits xs [] acc h
  simpa [pyDigitsVal] using h2

lemma decDigits_foldl (fuel n acc : Nat) (hf : n ≤ fuel) :
    (decDigits fuel n).foldl (fun a c => 10 * a + (c - 48)) acc
      = acc * 10 ^ (decDigits fuel n).length + n := by
  induction fuel generalizing n acc with
  | zero =>
    simp only [decDigits, List.foldl_cons, List.foldl_nil, List.length_singleton, pow_one]
    omega
  | succ f ih =>
    simp only [decDigits]
    split
    next h10 =>
      simp only [List.foldl_cons, List.foldl_nil, List.length_singleton, pow_one]
      omega
    next h10 =>
      rw [List.foldl_append, ih (n / 10) acc (by omega), List.length_append,
        List.length_singleton, List.foldl_cons, List.foldl_nil, pow_succ, ← mul_assoc]
      set M := acc * 10 ^ (decDigits f (n / 10)).length
      omega

lemma pyIntDigits_decRepr (n : Nat) : pyIntDigits (decRepr n) = some n := by
  obtain ⟨c, cs, hcs⟩ :=
    List.exists_cons_of_ne_nil (show decRepr n ≠ [] from decDigits_ne_nil n n)
  have hdig : ∀ x ∈ decRepr n, isDigitB x = true := by
    intro x hx
    have hb := decDigits_mem_digit (show x ∈ decDigits n n from hx)
    simp only [isDigitB, Bool.and_eq_true, decide_eq_true_eq]
    omega
  have hc : isDigitB c = true := hdig c (by rw [hcs]; simp)
  have hval := decDigits_foldl n n 0 (le_refl n)
  rw [show decDigits n n = decRepr n from rfl, hcs] at hval
  simp only [List.foldl_cons, Nat.zero_mul, Nat.zero_add, Nat.mul_zero] at hval
  rw [hcs]
  simp only [pyIntDigits, hc, if_true]
  rw [pyDigitsVal_digits_eq cs (c - 48) (fun d hd => hdig d (by rw [hcs]; simp [hd]))]
  rw [hval]

lemma isPyWsB_digit_false {c : Nat} (h1 : 48 ≤ c) (h2 : c ≤ 57) : isPyWsB c = false := by
  simp only [isPyWsB, Bool.or_eq_false_iff, beq_eq_false_iff_ne]
  omega

lemma pyInt_decRepr (n : Nat) : pyInt (decRepr n) = some (n : Int) := by
  have hdig : ∀ x ∈ decRepr n, 48 ≤ x ∧ x ≤ 57 := fun x hx =>
    decDigits_mem_digit (show x ∈ decDigits n n from hx)
  obtain ⟨c, cs, hcs⟩ :=
    List.exists_cons_of_ne_nil (show decRepr n ≠ [] from decDigits_ne_nil n n)
  have hcd := hdig c (by rw [hcs]; simp)
  have hd1 : (decRepr n).dropWhile isPyWsB = decRepr n := by
    rw [hcs, List.dropWhile_cons, isPyWsB_digit_false hcd.1 hcd.2]
    simp
  have hd2 : (decRepr n).reverse.dropWhile isPyWsB = (decRepr n).reverse := by
    obtain ⟨c2, cs2, hcs2⟩ :=
      List.exists_cons_of_ne_nil (show (decRepr n).reverse ≠ [] by simp [hcs])
    have hm2 : c2 ∈ decRepr n := by
      have hm : c2 ∈ (decRepr n).reverse := by rw [hcs2]; simp
      simpa using hm
    have hb := hdig c2 hm2
    rw [hcs2, List.dropWhile_cons, isPyWsB_digit_false hb.1 hb.2]
    simp
  simp only [pyInt, hd1, hd2, List.reverse_reverse]
  rw [hcs]
  have h43 : (c == 43) = false := beq_eq_false_iff_ne.2 (by omega)
  have h45 : (c == 45) = false := beq_eq_false_iff_ne.2 (by omega)
  simp only [h43, h45, Bool.false_eq_true, if_false]
  rw [← hcs, pyIntDigits_decRepr]
  rfl

lemma is_clean_mem {b : Bytes} (h : is_clean b = true) :
    ∀ c ∈ b, 32 ≤ c ∧ c ≤ 126 ∧ c ≠ pipeB := by
  intro c hc
  cases b with
  | nil => simp at hc
  | cons x xs =>
    simp only [is_clean] at h
    split at h
    · exact absurd h (by simp)
    · have hall := List.all_eq_true.1 h c hc
      simp only [Bool.not_or, Bool.and_eq_true, Bool.not_eq_true', decide_eq_false_iff_not,
        beq_eq_false_iff_ne, not_lt, not_lt] at hall
      obtain ⟨⟨h1, h2⟩, h3⟩ := hall
      exact ⟨by omega, by omega, h3⟩

lemma is_clean_no_nl {b : Bytes} (h : is_clean b = true) : ¬ nlB ∈ b := by
  intro hm
  have h1 : 32 ≤ (10 : Nat) := (is_clean_mem h _ hm).1
  omega

lemma is_clean_no_pipe {b : Bytes} (h : is_clean b = true) : ¬ pipeB ∈ b := by
  intro hm
  exact (is_clean_mem h _ hm).2.2 rfl

lemma is_clean_take1 {b : Bytes} (h : is_clean b = true) : (b.take 1 == [ampB]) = false := by
  cases b with
  | nil => rfl
  | cons x xs =>
    simp only [is_clean] at h
    split at h
    · exact absurd h (by simp)
    next hx =>
      have hxa : x ≠ ampB := by
        intro e
        exact hx (by simp [e])
      rw [beq_eq_false_iff_ne]
      simp [hxa]

lemma decRepr_mem {n c : Nat} (h : c ∈ decRepr n) : 48 ≤ c ∧ c ≤ 57 :=
  decDigits_mem_digit (show c ∈ decDigits n n from h)

lemma escape_arg_fst_no_nl (a : Bytes) : ¬ nlB ∈ (escape_arg a).1 := by
  simp only [escape_arg]
  split
  next h => simpa using is_clean_no_nl h
  next h =>
    intro hm
    simp only [List.mem_cons] at hm
    rcases hm with h1 | h1
    · exact absurd h1 (by norm_num [nlB, ampB])
    · have hb : 48 ≤ (10 : Nat) := (decRepr_mem h1).1
      omega

lemma escape_arg_fst_no_pipe (a : Bytes) : ¬ pipeB ∈ (escape_arg a).1 := by
  simp only [escape_arg]
  split
  next h => simpa using is_clean_no_pipe h
  next h =>
    intro hm
    simp only [List.mem_cons] at hm
    rcases hm with h1 | h1
    · exact absurd h1 (by norm_num [pipeB, ampB])
    · have hb : (124 : Nat) ≤ 57 := (decRepr_mem h1).2
      omega

lemma no_nl_intercalate : ∀ (parts : List Bytes),
    (∀ p ∈ parts, ¬ nlB ∈ p) → ¬ nlB ∈ List.intercalate [pipeB] parts
  | [], _ => by simp [List.intercalate]
  | [p], h => by simpa [List.intercalate] using h p (by simp)
  | p :: q :: qs, h => by
    have hrec := no_nl_intercalate (q :: qs) (fun r hr => h r (List.mem_cons_of_mem _ hr))
    intro hm
    simp only [List.intercalate, List.intersperse_cons_cons, List.flatten_cons,
      List.mem_append, List.mem_cons] at hm
    rcases hm with h1 | h1
    · exact h p (by simp) h1
    rcases h1 with h1 | h1
    · rcases h1 with h2 | h2
      · exact absurd h2 (by norm_num [nlB, pipeB])
      · simp at h2
    · exact hrec (by simpa [List.intercalate] using h1)

lemma takeWhile_until_nl {l rest : Bytes} (h : ¬ nlB ∈ l) :
    List.takeWhile (fun x => !(x == nlB)) (l ++ nlB :: rest) = l := by
  induction l with
  | nil => simp [List.takeWhile_cons]
  | cons c cs ih =>
    have hc : (c == nlB) = false := beq_eq_false_iff_ne.2 (fun e => h (by simp [e]))
    simp only [List.cons_append, List.takeWhile_cons, hc, Bool.not_false, if_true]
    rw [ih (fun m => h (by simp [m]))]

lemma dropWhile_until_nl {l rest : Bytes} (h : ¬ nlB ∈ l) :
    List.dropWhile (fun x => !(x == nlB)) (l ++ nlB :: rest) = nlB :: rest := by
  induction l with
  | nil => simp [List.dropWhile_cons]
  | cons c cs ih =>
    have hc : (c == nlB) = false := beq_eq_false_iff_ne.2 (fun e => h (by simp [e]))
    simp only [List.cons_append, List.dropWhile_cons, hc, Bool.not_false, if_true]
    exact ih (fun m => h (by simp [m]))

lemma read_packet_line_spec {line rest : Bytes} (h : ¬ nlB ∈ line) :
    read_packet_line (line ++ nlB :: rest) = some (line, rest) := by
  rw [read_packet_line, if_pos (by simp)]
  rw [takeWhile_until_nl h, dropWhile_until_nl h]
  rfl

lemma read_packet_bytes_exact (a u : Bytes) :
    read_packet_bytes ((a.length : Int)) (a ++ nlB :: u) = some (a, u) := by
  rw [read_packet_bytes, if_pos (by
    simp only [List.length_append, List.length_cons]
    push_cast
    omega)]
  rw [pySliceTo, if_pos (Int.natCast_nonneg _), pySliceFrom,
    if_pos (by positivity), Int.toNat_natCast, List.take_left]
  have h1 : ((a.length : Int) + 1).toNat = a.length + 1 := by omega
  rw [h1, List.append_cons a nlB u]
  have h2 : a.length + 1 = (a ++ [nlB]).length := by simp
  rw [h2, List.drop_left]

lemma intercalate_nl_line (line : Bytes) (rs : List Bytes) :
    List.intercalate [nlB] (line :: (rs ++ [[]]))
      = line ++ nlB :: ((rs.map (fun r => r ++ [nlB])).flatten) := by
  induction rs generalizing line with
  | nil => simp [List.intercalate]
  | cons r rs ih =>
    simp only [List.cons_append, List.intercalate, List.intersperse_cons_cons,
      List.flatten_cons] at ih ⊢
    rw [ih r]
    simp

lemma readFields_enc (args : List Bytes) (acc : List Bytes) (tl : Bytes) :
    readFields ((args.map escape_arg).map Prod.fst)
      ((((args.map escape_arg).filterMap Prod.snd).map (fun r => r ++ [nlB])).flatten ++ tl)
      acc
    = .ok (acc.reverse ++ args) tl := by
  induction args generalizing acc with
  | nil => simp [readFields]
  | cons a as ih =>
    by_cases hc : is_clean a = true
    · have hesc : escape_arg a = (a, none) := by simp [escape_arg, hc]
      simp only [List.map_cons, hesc, List.filterMap_cons]
      rw [readFields, is_clean_take1 hc]
      simp only [Bool.false_eq_true, if_false]
      rw [ih (a :: acc)]
      simp
    · have hesc : escape_arg a = (ampB :: decRepr a.length, some a) := by
        simp [escape_arg, hc]
      simp only [List.map_cons, hesc, List.filterMap_cons, List.flatten_cons]
      rw [readFields]
      have htake : ((ampB :: decRepr a.length).take 1 == [ampB]) = true := by simp
      rw [htake]
      simp only [if_true, List.tail_cons]
      rw [show (pyInt (decRepr a.length)) = some ((a.length : Int)) from pyInt_decRepr _]
      simp only [List.append_assoc, List.singleton_append, List.cons_append]
      rw [read_packet_bytes_exact]
      simp only [List.nil_append]
      rw [ih (a :: acc)]
      simp

lemma all_congr_fun {p q : Nat → Bool} (h : ∀ c, p c = q c) :
    ∀ l : Bytes, l.all p = l.all q
  | [] => rfl
  | c :: cs => by simp only [List.all_cons, h c, all_congr_fun h cs]

lemma clean_pointwise (ch : Nat) :
    (!(decide (ch < 32) || decide (ch > 126) || ch == pipeB))
      = (decide (32 ≤ ch) && decide (ch ≤ 126) && !(ch == pipeB)) := by
  by_cases h1 : ch < 32
  · have e1 : ¬ 32 ≤ ch := by omega
    simp [h1, e1]
  · by_cases h2 : 126 < ch
    · have e2 : ¬ ch ≤ 126 := by omega
      simp [h1, h2, e2]
    · have e1 : 32 ≤ ch := by omega
      have e2 : ch ≤ 126 := by omega
      simp [h1, h2, e1, e2]

/-- C1 (amended): the frame codec round-trips every frame whose token field
is clean (`write_command` sends the token verbatim, so only the argument
fields may be raw): for every argument list — including empty fields,
fields starting with `&`, fields containing `|`, fields containing
newlines, and fields with bytes above 0x7E — decoding the encoded frame
from the stream yields exactly the original fields and leaves the rest of
the stream untouched. -/
theorem luatt_c1_roundtrip_clean_token (token : Bytes) (args : List Bytes) (rest : Bytes)
    (h : is_clean token = true) :
    read_packet (write_command token args ++ rest) = .ok (token :: args) rest := by
  have hparts : ∀ p ∈ token :: (args.map escape_arg).map Prod.fst, ¬ nlB ∈ p := by
    intro p hp
    rcases List.mem_cons.1 hp with hp | hp
    · rw [hp]
      exact is_clean_no_nl h
    · obtain ⟨x, hx, hxe⟩ := List.mem_map.1 hp
      obtain ⟨a2, _, ha2⟩ := List.mem_map.1 hx
      rw [← hxe, ← ha2]
      exact escape_arg_fst_no_nl a2
  have hpipes : ∀ p ∈ token :: (args.map escape_arg).map Prod.fst, pipeB ∉ p := by
    intro p hp
    rcases List.mem_cons.1 hp with hp | hp
    · rw [hp]
      exact is_clean_no_pipe h
    · obtain ⟨x, hx, hxe⟩ := List.mem_map.1 hp
      obtain ⟨a2, _, ha2⟩ := List.mem_map.1 hx
      rw [← hxe, ← ha2]
      exact escape_arg_fst_no_pipe a2
  have hline := no_nl_intercalate _ hparts
  simp only [write_command]
  rw [intercalate_nl_line, List.append_assoc, List.cons_append]
  simp only [read_packet, read_packet_line_spec hline]
  rw [splitPipe, List.splitOn_intercalate _ pipeB hpipes (by simp)]
  rw [readFields, is_clean_take1 h]
  simp only [Bool.false_eq_true, if_false]
  have hfin := readFields_enc args [token] rest
  simpa using hfin

/-- C1 counterexample: the claim as stated quantifies over every field
sequence, but `write_command` never escapes the first field (the token).
Encoding the single-field frame `[b"a|b"]` and decoding it yields the two
fields `[b"a", b"b"]`, not the original sequence. -/
theorem luatt_c1_counterexample :
    read_packet (write_command [97, 124, 98] []) = .ok [[97], [98]] []
      ∧ read_packet (write_command [97, 124, 98] []) ≠ .ok [[97, 124, 98]] [] := by
  decide

/-- C1 witness: a concrete clean token with an empty field, a `&`-leading
field, a `|`-carrying field, a newline field and a high byte, round-tripped
in front of further buffered input. -/
theorem luatt_c1_witness :
    is_clean [116, 107] = true
      ∧ read_packet (write_command [116, 107] [[], [38, 120], [97, 124, 98], [10], [200]] ++ [55])
        = .ok [[116, 107], [], [38, 120], [97, 124, 98], [10], [200]] [55] :=
  ⟨by decide,
    luatt_c1_roundtrip_clean_token [116, 107] [[], [38, 120], [97, 124, 98], [10], [200]] [55]
      (by decide)⟩

/-- C3 counterexample: the code treats the empty field as clean
(`is_clean` returns `True` on `b""`), so `escape_arg(b"")` is
`(b"", None)` and not the claimed `(b"&0", b"")`. -/
theorem luatt_c3_counterexample :
    escape_arg [] = ([], none) ∧ escape_arg [] ≠ ([ampB, 48], some []) := by
  decide

/-- C3 (amended): `escape_arg` returns a clean field unchanged with no
trailer and replaces a raw field by `&<decimal length>` with the field as
trailer, where a field is clean iff it is empty, or every byte is in
0x20..0x7E, none is `|`, and the first is not `&`.  In particular
`escape_arg(b"123") = (b"123", None)`, `escape_arg(b"1\t3") = (b"&3",
b"1\t3")`, `escape_arg(b"&x") = (b"&2", b"&x")`, and — unlike the claim —
`escape_arg(b"") = (b"", None)`. -/
theorem luatt_c3_field_classification :
    escape_arg [49, 50, 51] = ([49, 50, 51], none)
      ∧ escape_arg [49, 9, 51] = ([ampB, 51], some [49, 9, 51])
      ∧ escape_arg [38, 120] = ([ampB, 50], some [38, 120])
      ∧ escape_arg [] = ([], none)
      ∧ ∀ b : Bytes, is_clean b = cleanSpec b := by
  refine ⟨by decide, by decide, by decide, by decide, ?_⟩
  intro b
  cases b with
  | nil => rfl
  | cons x xs =>
    by_cases hx : x = ampB
    · simp [is_clean, cleanSpec, hx]
    · have hxb : (x == ampB) = false := beq_eq_false_iff_ne.2 hx
      simp only [is_clean, cleanSpec, hxb, Bool.false_eq_true, if_false, List.head?_cons,
        List.isEmpty_cons, Option.some.injEq, Bool.false_or]
      rw [show ((some x == some ampB)) = false by simp [hx]]
      simp only [Bool.not_false, Bool.true_and]
      exact all_congr_fun clean_pointwise (x :: xs)

/-- C5 (amended): a `&N` length token whose digits do not parse as a
Python integer raises `ValueError` inside `read_packet`; the exception is
not caught anywhere in the reader, so the frame is not dropped-and-logged:
the `read_serial` thread dies with the exception (without setting `Quit`
or signalling the main thread). -/
theorem luatt_c5_malformed_count_raises (junk s : Bytes)
    (h1 : pyInt junk = none) (h2 : ¬ nlB ∈ junk) (h3 : ¬ pipeB ∈ junk) :
    read_packet ((ampB :: junk) ++ nlB :: s) = .exn
      ∧ read_serial_iter ((ampB :: junk) ++ nlB :: s) = .raised := by
  have hln : ¬ nlB ∈ (ampB :: junk) := by
    intro hm
    rcases List.mem_cons.1 hm with e | e
    · exact absurd e (by norm_num [nlB, ampB])
    · exact h2 e
  have hpkt : read_packet ((ampB :: junk) ++ nlB :: s) = .exn := by
    simp only [read_packet, read_packet_line_spec hln]
    have hsp : splitPipe (ampB :: junk) = [ampB :: junk] := by
      rw [splitPipe, List.splitOn]
      apply List.splitOnP_eq_single
      intro x hxm
      simp only [beq_iff_eq]
      rcases List.mem_cons.1 hxm with e | e
      · subst e
        norm_num [ampB, pipeB]
      · intro heq
        exact h3 (heq ▸ e)
    rw [hsp, readFields]
    simp [h1]
  exact ⟨hpkt, by rw [read_serial_iter, hpkt]⟩

/-- C5 witness: the malformed length token `&zz` followed by more stream. -/
theorem luatt_c5_witness :
    read_packet ((ampB :: [122, 122]) ++ nlB :: [104]) = .exn
      ∧ read_serial_iter ((ampB :: [122, 122]) ++ nlB :: [104]) = .raised :=
  luatt_c5_malformed_count_raises [122, 122] [104] (by decide) (by decide) (by decide)

/-- C5 counterexample: on the concrete frame `&zz|hi\n` the reader raises
(`int(b"zz")` throws `ValueError`, uncaught), so the frame is not dropped
with the reader continuing: the `read_serial` thread is killed. -/
theorem luatt_c5_counterexample :
    read_packet [ampB, 122, 122, 124, 104, 105, nlB] = .exn
      ∧ read_serial_iter [ampB, 122, 122, 124, 104, 105, nlB] = .raised := by
  decide

/-- C6: encoding the fields `("noret", "load", "foo", b"a|b\nc")` — what
`write_command(fd, "noret", "load", "foo", b"a|b\nc")` emits — produces
exactly the bytes `noret|load|foo|&5\na|b\nc\n`. -/
theorem luatt_c6_exact_encoding :
    write_command [110, 111, 114, 101, 116]
        [[108, 111, 97, 100], [102, 111, 111], [97, 124, 98, 10, 99]]
      = [110, 111, 114, 101, 116, 124, 108, 111, 97, 100, 124, 102, 111, 111, 124, 38, 53, 10,
          97, 124, 98, 10, 99, 10] := by
  decide

end Luatt

namespace StripC

lemma quoteBody_decomp (q : Char) : ∀ (s b r : Str), quoteBody q s = some (b, r) → b ++ r = s
  | [], b, r => by
    intro h
    simp [quoteBody] at h
  | [c], b, r => by
    intro h
    simp only [quoteBody] at h
    split at h
    · simp only [Option.some.injEq, Prod.mk.injEq] at h
      obtain ⟨hb, hr⟩ := h
      subst hb
      subst hr
      rfl
    · simp at h
  | c :: d :: ds, b, r => by
    intro h
    simp only [quoteBody] at h
    split at h
    · simp only [Option.some.injEq, Prod.mk.injEq] at h
      obtain ⟨hb, hr⟩ := h
      subst hb
      subst hr
      rfl
    · split at h
      · split at h
        · cases hrec : quoteBody q (d :: ds) with
          | none => rw [hrec] at h; simp at h
          | some p =>
            obtain ⟨b1, r1⟩ := p
            rw [hrec] at h
            simp only [Option.some.injEq, Prod.mk.injEq] at h
            obtain ⟨hb, hr⟩ := h
            subst hb
            subst hr
            have hd2 := quoteBody_decomp q (d :: ds) b1 r1 hrec
            simp [← hd2]
        · cases hrec1 : quoteBody q ds with
          | some p =>
            obtain ⟨b1, r1⟩ := p
            rw [hrec1] at h
            simp only [Option.some.injEq, Prod.mk.injEq] at h
            obtain ⟨hb, hr⟩ := h
            subst hb
            subst hr
            have hd2 := quoteBody_decomp q ds b1 r1 hrec1
            simp [← hd2]
          | none =>
            rw [hrec1] at h
            cases hrec2 : quoteBody q (d :: ds) with
            | none => rw [hrec2] at h; simp at h
            | some p =>
              obtain ⟨b1, r1⟩ := p
              rw [hrec2] at h
              simp only [Option.some.injEq, Prod.mk.injEq] at h
              obtain ⟨hb, hr⟩ := h
              subst hb
              subst hr
              have hd2 := quoteBody_decomp q (d :: ds) b1 r1 hrec2
              simp [← hd2]
      · cases hrec : quoteBody q (d :: ds) with
        | none => rw [hrec] at h; simp at h
        | some p =>
          obtain ⟨b1, r1⟩ := p
          rw [hrec] at h
          simp only [Option.some.injEq, Prod.mk.injEq] at h
          obtain ⟨hb, hr⟩ := h
          subst hb
          subst hr
          have hd2 := quoteBody_decomp q (d :: ds) b1 r1 hrec
          simp [← hd2]

lemma matchQuoted_decomp {q : Char} {s t r : Str} (h : matchQuoted q s = some (t, r)) :
    t ++ r = s ∧ t ≠ [] := by
  cases s with
  | nil => simp [matchQuoted] at h
  | cons c cs =>
    simp only [matchQuoted] at h
    split at h
    · cases hrec : quoteBody q cs with
      | none => rw [hrec] at h; simp at h
      | some p =>
        obtain ⟨b1, r1⟩ := p
        rw [hrec] at h
        simp only [Option.some.injEq, Prod.mk.injEq] at h
        obtain ⟨hb, hr⟩ := h
        subst hb
        subst hr
        have hd2 := quoteBody_decomp q cs b1 r1 hrec
        exact ⟨by simp [← hd2], by simp⟩
    · simp at h

lemma stripPfx_decomp : ∀ (p s rest : Str), stripPfx p s = some rest → p ++ rest = s
  | [], s, rest => by
    intro h
    simp only [stripPfx, Option.some.injEq] at h
    subst h
    rfl
  | p :: ps, [], rest => by
    intro h
    simp [stripPfx] at h
  | p :: ps, c :: cs, rest => by
    intro h
    simp only [stripPfx] at h
    split at h
    next hc =>
      have hd := stripPfx_decomp ps cs rest h
      have : c = p := by simpa using hc
      simp [← hd, this]
    · simp at h

lemma tryClose_decomp {eqs l cl r : Str} (h : tryClose eqs l = some (cl, r)) :
    cl ++ r = l := by
  cases l with
  | nil => simp [tryClose] at h
  | cons c l1 =>
    simp only [tryClose] at h
    split at h
    next hc =>
      cases hsp : stripPfx eqs l1 with
      | none => rw [hsp] at h; simp at h
      | some rest =>
        rw [hsp] at h
        cases rest with
        | nil => simp at h
        | cons c2 l3 =>
          simp only [] at h
          split at h
          next hc2 =>
            simp only [Option.some.injEq, Prod.mk.injEq] at h
            obtain ⟨hb, hr⟩ := h
            subst hb
            subst hr
            have hd := stripPfx_decomp eqs l1 (c2 :: l3) hsp
            have hc' : c = ']' := by simpa using hc
            have hc2' : c2 = ']' := by simpa using hc2
            subst hc'
            subst hc2'
            simp only [List.cons_append, List.cons.injEq, true_and]
            rw [List.append_assoc]
            simpa using hd
          next hc2 => simp at h
    next hc => simp at h

lemma lazyClose_decomp (eqs : Str) : ∀ (l b r : Str), lazyClose eqs l = some (b, r) → b ++ r = l
  | [], b, r => by
    intro h
    simp only [lazyClose] at h
    cases htc : tryClose eqs [] with
    | none => rw [htc] at h; simp at h
    | some p =>
      obtain ⟨cl, r1⟩ := p
      rw [htc] at h
      simp only [Option.some.injEq, Prod.mk.injEq] at h
      obtain ⟨hb, hr⟩ := h
      subst hb
      subst hr
      exact tryClose_decomp htc
  | c :: cs, b, r => by
    intro h
    simp only [lazyClose] at h
    cases htc : tryClose eqs (c :: cs) with
    | some p =>
      obtain ⟨cl, r1⟩ := p
      rw [htc] at h
      simp only [Option.some.injEq, Prod.mk.injEq] at h
      obtain ⟨hb, hr⟩ := h
      subst hb
      subst hr
      exact tryClose_decomp htc
    | none =>
      rw [htc] at h
      cases hrec : lazyClose eqs cs with
      | none => rw [hrec] at h; simp at h
      | some p =>
        obtain ⟨b1, r1⟩ := p
        rw [hrec] at h
        simp only [Option.some.injEq, Prod.mk.injEq] at h
        obtain ⟨hb, hr⟩ := h
        subst hb
        subst hr
        have hd2 := lazyClose_decomp eqs cs b1 r1 hrec
        simp [← hd2]

lemma bracketCore_decomp {s : Str} {core eqs r : Str} (h : bracketCore s = some (core, eqs, r)) :
    core ++ r = s ∧ core ≠ [] := by
  cases s with
  | nil => simp [bracketCore] at h
  | cons c s1 =>
    simp only [bracketCore] at h
    split at h
    next hc =>
      cases heq2 : eqDrop s1 with
      | nil => rw [heq2] at h; simp at h
      | cons c2 s3 =>
        rw [heq2] at h
        simp only [] at h
        split at h
        next hc2 =>
          cases hlz : lazyClose (eqTake s1) s3 with
          | none => rw [hlz] at h; simp at h
          | some p =>
            obtain ⟨body, r0⟩ := p
            rw [hlz] at h
            simp only [Option.some.injEq, Prod.mk.injEq] at h
            obtain ⟨hco, heqs, hr⟩ := h
            subst hco
            subst heqs
            subst hr
            have hlzd := lazyClose_decomp _ s3 body r0 hlz
            have hc' : c = '[' := by simpa using hc
            have hc2' : c2 = '[' := by simpa using hc2
            subst hc'
            subst hc2'
            refine ⟨?_, by simp⟩
            simp only [List.cons_append, List.cons.injEq, true_and]
            rw [List.append_assoc, List.cons_append, List.append_assoc]
            rw [show wsTake r0 ++ wsDrop r0 = r0 from List.takeWhile_append_dropWhile _ _]
            rw [hlzd, ← heq2]
            rw [show eqTake s1 ++ eqDrop s1 = s1 from List.takeWhile_append_dropWhile _ _]
        next hc2 => simp at h
    next hc => simp at h

lemma nlCount_append (a b : Str) : nlCount (a ++ b) = nlCount a + nlCount b :=
  List.count_append _ _ _

lemma nlCount_keepNewlines (t : Str) : nlCount (keepNewlines t) = nlCount t := by
  simp only [nlCount, keepNewlines]
  induction t with
  | nil => rfl
  | cons c cs ih =>
    by_cases hc : c = '\n'
    · simp [List.filter_cons, hc, List.count_cons, ih]
    · simp [List.filter_cons, List.count_cons, beq_eq_false_iff_ne.2 hc, hc, ih]

lemma nlCount_wsTake (s : Str) : nlCount (wsTake s) = 0 := by
  rw [nlCount, List.count_eq_zero]
  intro hm
  have hp := List.mem_takeWhile_imp hm
  simp [isWsCh] at hp

lemma only_newlines_none2 (t : Str) (g2 : Option Str) :
    only_newlines ⟨t, none, g2, none, none, none, none⟩ = t := rfl

lemma nlCount_nil : nlCount [] = 0 := rfl

lemma nlCount_space : nlCount [' '] = 0 := rfl

lemma only_newlines_g1dash (t : Str) (g2 : Option Str) :
    nlCount (only_newlines ⟨t, some ['-', '-'], g2, none, none, none, none⟩) = nlCount t := by
  have h1 : truthy (some ['-', '-']) = true := rfl
  simp only [only_newlines, h1, if_true]
  split
  next he =>
    have h0 := nlCount_keepNewlines t
    rw [List.isEmpty_iff] at he
    rw [he, nlCount_nil] at h0
    rw [nlCount_space, ← h0]
  next he => exact nlCount_keepNewlines t

lemma only_newlines_g3dash (t : Str) :
    nlCount (only_newlines ⟨t, none, none, some ['-', '-'], none, none, none⟩) = nlCount t := by
  have h1 : truthy (none : Option Str) = false := rfl
  have h3 : truthy (some ['-', '-']) = true := rfl
  simp only [only_newlines, h1, h3, Bool.false_eq_true, if_false, if_true]
  exact nlCount_keepNewlines t

lemma longBracketNoDash_spec {ws1 s1 : Str} {m : MatchData} {r : Str}
    (h : longBracketNoDash ws1 s1 = some (m, r)) :
    m.text ++ r = ws1 ++ s1 ∧ m.text ≠ []
      ∧ nlCount (only_newlines m) = nlCount m.text := by
  simp only [longBracketNoDash] at h
  cases hbc : bracketCore s1 with
  | none => rw [hbc] at h; simp at h
  | some p =>
    obtain ⟨core, eqs2, r0⟩ := p
    rw [hbc] at h
    simp only [Option.some.injEq, Prod.mk.injEq] at h
    obtain ⟨hm, hr⟩ := h
    subst hm
    subst hr
    obtain ⟨hd, hne⟩ := bracketCore_decomp hbc
    refine ⟨?_, by simp [hne], ?_⟩
    · rw [List.append_assoc, hd]
    · rw [only_newlines_none2]

lemma matchLongBracket_spec {s : Str} {m : MatchData} {r : Str}
    (h : matchLongBracket s = some (m, r)) :
    m.text ++ r = s ∧ m.text ≠ []
      ∧ nlCount (only_newlines m) = nlCount m.text := by
  have hsplit : wsTake s ++ wsDrop s = s := List.takeWhile_append_dropWhile _ _
  simp only [matchLongBracket] at h
  split at h
  next x c d s2 heq =>
    split at h
    next hdash =>
      obtain ⟨hc, hd2⟩ : c = '-' ∧ d = '-' := by simpa using hdash
      subst hc
      subst hd2
      cases hbc : bracketCore s2 with
      | none =>
        rw [hbc] at h
        obtain ⟨h1, h2, h3⟩ := longBracketNoDash_spec h
        rw [← heq, hsplit] at h1
        exact ⟨h1, h2, h3⟩
      | some p =>
        obtain ⟨core, eqs2, r0⟩ := p
        rw [hbc] at h
        simp only [Option.some.injEq, Prod.mk.injEq] at h
        obtain ⟨hm, hr⟩ := h
        subst hm
        subst hr
        obtain ⟨hdec, hne⟩ := bracketCore_decomp hbc
        refine ⟨?_, by simp, only_newlines_g1dash _ _⟩
        rw [List.append_assoc]
        simp only [List.cons_append]
        rw [hdec, ← heq, hsplit]
    next hdash =>
      obtain ⟨h1, h2, h3⟩ := longBracketNoDash_spec h
      rw [← heq, hsplit] at h1
      exact ⟨h1, h2, h3⟩
  next x hno =>
    obtain ⟨h1, h2, h3⟩ := longBracketNoDash_spec h
    rw [hsplit] at h1
    exact ⟨h1, h2, h3⟩

lemma bodyToEol_decomp : ∀ (s b r : Str), bodyToEol s = some (b, r) → b ++ r = s
  | [], b, r => by
    intro h
    simp only [bodyToEol, Option.some.injEq, Prod.mk.injEq] at h
    obtain ⟨hb, hr⟩ := h
    subst hb
    subst hr
    rfl
  | c :: cs, b, r => by
    intro h
    simp only [bodyToEol] at h
    split at h
    · simp at h
    · split at h
      · simp only [Option.some.injEq, Prod.mk.injEq] at h
        obtain ⟨hb, hr⟩ := h
        subst hb
        subst hr
        rfl
      · simp only [Option.some.injEq, Prod.mk.injEq] at h
        obtain ⟨hb, hr⟩ := h
        subst hb
        subst hr
        simp [List.takeWhile_append_dropWhile]

lemma shortCommentNoBracket_spec {ws1 s2 : Str} {m : MatchData} {r : Str}
    (h : shortCommentNoBracket ws1 s2 = some (m, r)) :
    m.text ++ r = ws1 ++ '-' :: '-' :: s2 ∧ m.text ≠ []
      ∧ nlCount (only_newlines m) = nlCount m.text := by
  simp only [shortCommentNoBracket] at h
  cases hb : bodyToEol s2 with
  | none => rw [hb] at h; simp at h
  | some p =>
    obtain ⟨b0, r0⟩ := p
    rw [hb] at h
    simp only [Option.some.injEq, Prod.mk.injEq] at h
    obtain ⟨hm, hr⟩ := h
    subst hm
    subst hr
    have hd := bodyToEol_decomp s2 b0 r0 hb
    refine ⟨?_, by simp, only_newlines_g3dash _⟩
    rw [List.append_assoc]
    simp only [List.cons_append]
    rw [hd]

lemma matchShortComment_spec {s : Str} {m : MatchData} {r : Str}
    (h : matchShortComment s = some (m, r)) :
    m.text ++ r = s ∧ m.text ≠ []
      ∧ nlCount (only_newlines m) = nlCount m.text := by
  have hsplit : wsTake s ++ wsDrop s = s := List.takeWhile_append_dropWhile _ _
  simp only [matchShortComment] at h
  split at h
  next x c d s2 heq =>
    split at h
    next hdash =>
      obtain ⟨hc, hd2⟩ : c = '-' ∧ d = '-' := by simpa using hdash
      subst hc
      subst hd2
      split at h
      next e s3 =>
        split at h
        next he =>
          have he2 : e = '[' := by simpa using he
          subst he2
          cases hbe : bodyToEol (eqDrop s3) with
          | none =>
            rw [hbe] at h
            obtain ⟨h1, h2, h3⟩ := shortCommentNoBracket_spec h
            rw [← heq, hsplit] at h1
            exact ⟨h1, h2, h3⟩
          | some p =>
            obtain ⟨b0, r0⟩ := p
            rw [hbe] at h
            simp only [Option.some.injEq, Prod.mk.injEq] at h
            obtain ⟨hm, hr⟩ := h
            subst hm
            subst hr
            have hd := bodyToEol_decomp _ b0 r0 hbe
            refine ⟨?_, by simp, only_newlines_g3dash _⟩
            rw [List.append_assoc]
            simp only [List.cons_append, List.append_assoc]
            rw [hd]
            rw [show eqTake s3 ++ eqDrop s3 = s3 from List.takeWhile_append_dropWhile _ _]
            rw [← heq, hsplit]
        next he =>
          obtain ⟨h1, h2, h3⟩ := shortCommentNoBracket_spec h
          rw [← heq, hsplit] at h1
          exact ⟨h1, h2, h3⟩
      next =>
        obtain ⟨h1, h2, h3⟩ := shortCommentNoBracket_spec h
        rw [← heq, hsplit] at h1
        exact ⟨h1, h2, h3⟩
    next hdash => simp at h
  next x hno => simp at h

lemma matchWsBol_spec {s : Str} {m : MatchData} {r : Str}
    (h : matchWsBol s = some (m, r)) :
    m.text ++ r = s ∧ m.text ≠ []
      ∧ nlCount (only_newlines m) = nlCount m.text := by
  simp only [matchWsBol] at h
  split at h
  next he => simp at h
  next he =>
    simp only [Option.some.injEq, Prod.mk.injEq] at h
    obtain ⟨hm, hr⟩ := h
    subst hm
    subst hr
    have hne : wsTake s ≠ [] := by
      intro he2
      rw [he2] at he
      simp at he
    have h4 : truthy (some (wsTake s)) = true := by
      simp [truthy, hne]
    have h1 : truthy (none : Option Str) = false := rfl
    refine ⟨List.takeWhile_append_dropWhile _ _, by simpa using hne, ?_⟩
    simp only [only_newlines, h1, h4, Bool.false_eq_true, if_false, Bool.true_or, Bool.or_false,
      if_true, nlCount_nil, nlCount_wsTake]

lemma matchWsEol_spec {s : Str} {m : MatchData} {r : Str}
    (h : matchWsEol s = some (m, r)) :
    m.text ++ r = s ∧ m.text ≠ []
      ∧ nlCount (only_newlines m) = nlCount m.text := by
  have hsplit : wsTake s ++ wsDrop s = s := List.takeWhile_append_dropWhile _ _
  simp only [matchWsEol] at h
  split at h
  next he => simp at h
  next he =>
    have hne : wsTake s ≠ [] := by
      intro he2
      rw [he2] at he
      simp at he
    have h5 : truthy (some (wsTake s)) = true := by
      simp [truthy, hne]
    have h1 : truthy (none : Option Str) = false := rfl
    cases hwd : wsDrop s with
    | nil =>
      rw [hwd] at h
      simp only [Option.some.injEq, Prod.mk.injEq] at h
      obtain ⟨hm, hr⟩ := h
      subst hm
      subst hr
      rw [hwd] at hsplit
      refine ⟨hsplit, by simpa using hne, ?_⟩
      simp only [only_newlines, h1, h5, Bool.false_eq_true, if_false, Bool.or_true,
        Bool.false_or, if_true, nlCount_nil, nlCount_wsTake]
    | cons c cs =>
      rw [hwd] at h
      split at h
      · simp_all
      next x2 c2 cs2 hc =>
        simp at h
        obtain ⟨hcnl, hm, hr⟩ := h
        injection hc with hceq hcseq
        subst hceq
        subst hcseq
        subst hcnl
        subst hm
        subst hr
        rw [hwd] at hsplit
        refine ⟨hsplit, by simpa using hne, ?_⟩
        simp only [only_newlines, h1, h5, Bool.false_eq_true, if_false, Bool.or_true,
          Bool.false_or, if_true, nlCount_nil, nlCount_wsTake]

lemma matchWsMid_spec {s : Str} {m : MatchData} {r : Str}
    (h : matchWsMid s = some (m, r)) :
    m.text ++ r = s ∧ m.text ≠ []
      ∧ nlCount (only_newlines m) = nlCount m.text := by
  simp only [matchWsMid] at h
  split at h
  next he => simp at h
  next he =>
    simp only [Option.some.injEq, Prod.mk.injEq] at h
    obtain ⟨hm, hr⟩ := h
    subst hm
    subst hr
    have hne : wsTake s ≠ [] := by
      intro he2
      rw [he2] at he
      simp at he
    have h6 : truthy (some (wsTake s)) = true := by
      simp [truthy, hne]
    have h1 : truthy (none : Option Str) = false := rfl
    refine ⟨List.takeWhile_append_dropWhile _ _, by simpa using hne, ?_⟩
    simp only [only_newlines, h1, h6, Bool.false_eq_true, if_false, Bool.or_false, if_true,
      nlCount_space, nlCount_wsTake]

lemma tryMatchAt_spec {bol : Bool} {s : Str} {m : MatchData} {r : Str}
    (h : tryMatchAt bol s = some (m, r)) :
    m.text ++ r = s ∧ m.text ≠ []
      ∧ nlCount (only_newlines m) = nlCount m.text := by
  simp only [tryMatchAt] at h
  cases h1 : matchQuoted '\'' s with
  | some p =>
    obtain ⟨t, r1⟩ := p
    rw [h1] at h
    simp only [Option.some.injEq, Prod.mk.injEq] at h
    obtain ⟨hm, hr⟩ := h
    subst hm
    subst hr
    obtain ⟨hd, hne⟩ := matchQuoted_decomp h1
    exact ⟨hd, hne, by rw [only_newlines_none2]⟩
  | none =>
    rw [h1] at h
    cases h2 : matchQuoted '"' s with
    | some p =>
      obtain ⟨t, r1⟩ := p
      rw [h2] at h
      simp only [Option.some.injEq, Prod.mk.injEq] at h
      obtain ⟨hm, hr⟩ := h
      subst hm
      subst hr
      obtain ⟨hd, hne⟩ := matchQuoted_decomp h2
      exact ⟨hd, hne, by rw [only_newlines_none2]⟩
    | none =>
      rw [h2] at h
      cases h3 : matchLongBracket s with
      | some p =>
        obtain ⟨m3, r3⟩ := p
        rw [h3] at h
        simp only [Option.some.injEq, Prod.mk.injEq] at h
        obtain ⟨hm, hr⟩ := h
        subst hm
        subst hr
        exact matchLongBracket_spec h3
      | none =>
        rw [h3] at h
        cases h4 : matchShortComment s with
        | some p =>
          obtain ⟨m4, r4⟩ := p
          rw [h4] at h
          simp only [Option.some.injEq, Prod.mk.injEq] at h
          obtain ⟨hm, hr⟩ := h
          subst hm
          subst hr
          exact matchShortComment_spec h4
        | none =>
          rw [h4] at h
          cases bol with
          | true =>
            simp only [if_true] at h
            cases h5 : matchWsBol s with
            | some p =>
              obtain ⟨m5, r5⟩ := p
              rw [h5] at h
              simp only [Option.some.injEq, Prod.mk.injEq] at h
              obtain ⟨hm, hr⟩ := h
              subst hm
              subst hr
              exact matchWsBol_spec h5
            | none =>
              rw [h5] at h
              cases h6 : matchWsEol s with
              | some p =>
                obtain ⟨m6, r6⟩ := p
                rw [h6] at h
                simp only [Option.some.injEq, Prod.mk.injEq] at h
                obtain ⟨hm, hr⟩ := h
                subst hm
                subst hr
                exact matchWsEol_spec h6
              | none =>
                rw [h6] at h
                exact matchWsMid_spec h
          | false =>
            simp only [Bool.false_eq_true, if_false] at h
            cases h6 : matchWsEol s with
            | some p =>
              obtain ⟨m6, r6⟩ := p
              rw [h6] at h
              simp only [Option.some.injEq, Prod.mk.injEq] at h
              obtain ⟨hm, hr⟩ := h
              subst hm
              subst hr
              exact matchWsEol_spec h6
            | none =>
              rw [h6] at h
              exact matchWsMid_spec h

lemma subLuaF_nl (fuel : Nat) : ∀ (s : Str) (bol : Bool), s.length ≤ fuel →
    nlCount (subLuaF fuel s bol) = nlCount s := by
  induction fuel with
  | zero =>
    intro s bol hlen
    have hs : s = [] := List.length_eq_zero.mp (Nat.le_zero.mp hlen)
    subst hs
    rfl
  | succ f ih =>
    intro s bol hlen
    simp only [subLuaF]
    cases hm : tryMatchAt bol s with
    | some p =>
      obtain ⟨m, r⟩ := p
      simp only [hm]
      obtain ⟨hdec, hne, hcnt⟩ := tryMatchAt_spec hm
      have hr : r.length ≤ f := by
        have hlen2 : m.text.length + r.length = s.length := by
          rw [← hdec, List.length_append]
        have hpos : 0 < m.text.length := List.length_pos.2 hne
        omega
      rw [nlCount_append, ih r _ hr, hcnt, ← nlCount_append, hdec]
    | none =>
      simp only [hm]
      cases s with
      | nil => rfl
      | cons c cs =>
        have hcs : cs.length ≤ f := by
          simp only [List.length_cons] at hlen
          omega
        have hih := ih cs (c == '\n') hcs
        simp only [nlCount, List.count_cons] at hih ⊢
        rw [hih]

/-- C4: for every input string, `strip_lua_comments` preserves the number
of newline characters: each regex match is replaced by a string with the
same newline count (comments keep exactly their newlines, removed
whitespace contains none, string literals are verbatim), and unmatched
characters are copied. -/
theorem stripc_c4_newline_preservation (s : Str) :
    nlCount (strip_lua_comments s) = nlCount s :=
  subLuaF_nl s.length s true (le_refl _)

/-- C8 counterexample: on the input `x = "-- not a comment"\n` the
stripper returns the input unchanged — in particular the single spaces
around `=` are kept (the regex only removes leading/trailing whitespace
runs and runs of two or more), so the output differs from the claimed
`x="-- not a comment"\n`. -/
theorem stripc_c8_counterexample :
    strip_lua_comments
        ['x', ' ', '=', ' ', '\"', '-', '-', ' ', 'n', 'o', 't', ' ', 'a', ' ',
          'c', 'o', 'm', 'm', 'e', 'n', 't', '\"', '\n']
      ≠ ['x', '=', '\"', '-', '-', ' ', 'n', 'o', 't', ' ', 'a', ' ',
          'c', 'o', 'm', 'm', 'e', 'n', 't', '\"', '\n'] := by
  decide

/-- C8 (amended): the `--` inside the double-quoted string literal does
not start a comment and the literal is kept verbatim; since the line has
no leading/trailing whitespace and no run of two or more spaces, the
stripper returns the input `x = "-- not a comment"\n` completely
unchanged (single mid-line spaces are not trimmed). -/
theorem stripc_c8_string_literal_preserved :
    strip_lua_comments
        ['x', ' ', '=', ' ', '\"', '-', '-', ' ', 'n', 'o', 't', ' ', 'a', ' ',
          'c', 'o', 'm', 'm', 'e', 'n', 't', '\"', '\n']
      = ['x', ' ', '=', ' ', '\"', '-', '-', ' ', 'n', 'o', 't', ' ', 'a', ' ',
          'c', 'o', 'm', 'm', 'e', 'n', 't', '\"', '\n'] := by
  decide

end StripC

namespace Luatt

/-- C2 counterexample: a `pub` frame whose token has a registered
queue is dispatched to the MQTT helper, and `process_serial_packet`
returns before the broadcast loop: the frame is neither enqueued nor
broadcast to the attached downstream client, contradicting
"unconditionally after the pub/sub/unsub dispatch ... every attached
downstream client receives the full original frame". -/
theorem luatt_c2_counterexample :
    (process_serial_packet [[116]] [3] [[116], pubB, [120], [121]]).busPub
        = some [[116], pubB, [120], [121]]
      ∧ (process_serial_packet [[116]] [3] [[116], pubB, [120], [121]]).enqueued = none
      ∧ (process_serial_packet [[116]] [3] [[116], pubB, [120], [121]]).broadcasts
          = [] := by
  decide

/-- C2 (amended): for a frame of at least two fields whose command
field is none of `pub`/`sub`/`unsub`, the router enqueues the frame on
the registered queue of its token and prints nothing, or, when the
token is unregistered, prints the `|`-joined non-token fields and
enqueues nothing; in both of these cases every attached downstream
client receives the re-encoded original frame.  (`pub`/`sub`/`unsub`
frames return early and are never broadcast; see the
counterexample.) -/
theorem luatt_c2_routing (qs : List Bytes) (downstreams : List Nat)
    (t c : Bytes) (rest : List Bytes)
    (h1 : c ≠ pubB) (h2 : c ≠ subB) (h3 : c ≠ unsubB) :
    (t ∈ qs →
        (process_serial_packet qs downstreams (t :: c :: rest)).enqueued
            = some (t, t :: c :: rest)
          ∧ (process_serial_packet qs downstreams (t :: c :: rest)).printed = none)
      ∧ (t ∉ qs →
          (process_serial_packet qs downstreams (t :: c :: rest)).printed
              = some (List.intercalate [pipeB] (c :: rest))
            ∧ (process_serial_packet qs downstreams (t :: c :: rest)).enqueued = none)
      ∧ (process_serial_packet qs downstreams (t :: c :: rest)).broadcasts
          = downstreams.map (fun d => (d, write_command t (c :: rest))) := by
  have e1 : (c == pubB) = false := beq_eq_false_iff_ne.mpr h1
  have e2 : (c == subB) = false := beq_eq_false_iff_ne.mpr h2
  have e3 : (c == unsubB) = false := beq_eq_false_iff_ne.mpr h3
  refine ⟨fun ht => ?_, fun ht => ?_, ?_⟩ <;>
    by_cases hq : t ∈ qs <;>
      simp_all [process_serial_packet, e1, e2, e3, noEffects]

/-- C2 witness: a `ret`-command frame with a registered token is
enqueued, not printed, and broadcast to both downstream clients. -/
theorem luatt_c2_witness :
    (process_serial_packet [[116, 107]] [3, 4]
          [[116, 107], [114, 101, 116], [52, 50]]).enqueued
        = some ([116, 107], [[116, 107], [114, 101, 116], [52, 50]])
      ∧ (process_serial_packet [[116, 107]] [3, 4]
            [[116, 107], [114, 101, 116], [52, 50]]).printed = none
      ∧ (process_serial_packet [[116, 107]] [3, 4]
            [[116, 107], [114, 101, 116], [52, 50]]).broadcasts
          = [3, 4].map
              (fun d => (d, write_command [116, 107] [[114, 101, 116], [52, 50]])) := by
  have h := luatt_c2_routing [[116, 107]] [3, 4] [116, 107] [114, 101, 116]
    [[52, 50]] (by decide) (by decide) (by decide)
  exact ⟨(h.1 (by decide)).1, (h.1 (by decide)).2, h.2.2⟩

/-- C7 counterexample: `!load missing.lua good.lua` with only
`good.lua` present issues no load request at all — the `except
OSError` handler logs the missing path and `return`s from `cmd_load`,
so `good.lua` is never attempted, although `!load good.lua` alone
would have loaded it. -/
theorem luatt_c7_counterexample :
    (cmd_load [(['g', '.', 'l', 'u', 'a'], ['x', '=', '1', '\n'])]
        [['!', 'l', 'o', 'a', 'd'], ['m', '.', 'l', 'u', 'a'], ['g', '.', 'l', 'u', 'a']]
        false)
      = ⟨[], [['m', '.', 'l', 'u', 'a']], false⟩
    ∧ (cmd_load [(['g', '.', 'l', 'u', 'a'], ['x', '=', '1', '\n'])]
        [['!', 'l', 'o', 'a', 'd'], ['g', '.', 'l', 'u', 'a']] false).steps
      ≠ [] := by
  decide

/-- C7 (amended): when the first load argument is a bare file (not a
`.zip`/`.luaz`/`.cmd` argument) whose path cannot be opened, `cmd_load`
logs that path and returns immediately: no load request is issued and
none of the remaining arguments is attempted. -/
theorem luatt_c7_bare_failure_aborts (fs : FS) (w a : PStr) (args : List PStr)
    (compile : Bool)
    (hz : ((splitext a).2 == zipE) = false)
    (hlz : ((splitext a).2 == luazE) = false)
    (hcm : ((splitext a).2 == cmdE) = false)
    (hmiss : fsRead fs (split_lua_name a).2 = none) :
    cmd_load fs (w :: a :: args) compile = ⟨[], [(split_lua_name a).2], false⟩ := by
  have hlen : ¬ (w :: a :: args).length < 2 := by simp
  simp only [cmd_load, if_neg hlen, List.tail_cons]
  simp only [cmdLoadArgs, hz, hlz, hcm, hmiss]
  simp

/-- C7 witness: the amended theorem at a concrete filesystem — the
missing first argument makes `!compile missing.lua good.lua` log the
missing path and skip the present second file. -/
theorem luatt_c7_witness :
    cmd_load [(['g', '.', 'l', 'u', 'a'], ['y'])]
        [['!', 'l', 'o', 'a', 'd'], ['m', '.', 'l', 'u', 'a'], ['g', '.', 'l', 'u', 'a']]
        true
      = ⟨[], [['m', '.', 'l', 'u', 'a']], false⟩ := by
  have h := luatt_c7_bare_failure_aborts [(['g', '.', 'l', 'u', 'a'], ['y'])]
      ['!', 'l', 'o', 'a', 'd'] ['m', '.', 'l', 'u', 'a'] [['g', '.', 'l', 'u', 'a']]
      true (by decide) (by decide) (by decide) (by decide)
  exact h

/-- C10: a bare `.lua` load argument reads at most `100 * 1024`
characters of the file — the single load request carries the
comment-stripped `data.take (100 * 1024)`, so for longer files the
excess is silently dropped. -/
theorem luatt_c10_bare_load_cap (fs : FS) (w a : PStr) (compile : Bool) (data : PStr)
    (hext : (splitext a).2 = luaE)
    (hread : fsRead fs (split_lua_name a).2 = some data) :
    (cmd_load fs [w, a] compile).steps
      = [LoadStep.loadReq (if compile then compileW else loadW) (split_lua_name a).1
          (StripC.strip_lua_comments (data.take (100 * 1024)))] := by
  have hz : ((splitext a).2 == zipE) = false := by rw [hext]; decide
  have hlz : ((splitext a).2 == luazE) = false := by rw [hext]; decide
  have hcm : ((splitext a).2 == cmdE) = false := by rw [hext]; decide
  have hlen : ¬ ([w, a]).length < 2 := by simp
  simp only [cmd_load, if_neg hlen, List.tail_cons]
  simp only [cmdLoadArgs, hz, hlz, hcm, hread, load_data]
  simp

/-- C10 witness: the cap theorem at a concrete one-file filesystem. -/
theorem luatt_c10_witness :
    (cmd_load [(['b', '.', 'l', 'u', 'a'], ['r', 'e', 't', ' ', '1', '\n'])]
        [['!', 'l', 'o', 'a', 'd'], ['b', '.', 'l', 'u', 'a']] false).steps
      = [LoadStep.loadReq loadW ['b']
          (StripC.strip_lua_comments
            ((['r', 'e', 't', ' ', '1', '\n']).take (100 * 1024)))] := by
  have h := luatt_c10_bare_load_cap
      [(['b', '.', 'l', 'u', 'a'], ['r', 'e', 't', ' ', '1', '\n'])]
      ['!', 'l', 'o', 'a', 'd'] ['b', '.', 'l', 'u', 'a'] false
      ['r', 'e', 't', ' ', '1', '\n'] (by decide) (by decide)
  exact h

end Luatt

namespace FilePack

lemma decodeF_cons_plain (fuel : Nat) (c : Char) (rest : List Char)
    (h : (c == '\\') = false) :
    decodeF (fuel + 1) (c :: rest) = (decodeF fuel rest).map (fun t => c.toNat :: t) := by
  simp [decodeF, h]

lemma decodeF_cons_named (fuel : Nat) (d : Char) (v : Nat) (rest : List Char)
    (hd : isOctDigit d = false) (hv : escCharVal d = some v) :
    decodeF (fuel + 1) ('\\' :: d :: rest)
      = (decodeF fuel rest).map (fun t => v :: t) := by
  simp [decodeF, hd, hv]

lemma decodeF_cons_oct (fuel : Nat) (d e f : Char) (rest : List Char)
    (hd : isOctDigit d = true) (he : isOctDigit e = true) (hf : isOctDigit f = true) :
    decodeF (fuel + 1) ('\\' :: d :: e :: f :: rest)
      = (decodeF fuel rest).map
          (fun t => (64 * octVal d + 8 * octVal e + octVal f) :: t) := by
  simp [decodeF, hd, he, hf]

lemma decodeF_cons_oct2 (fuel : Nat) (d e f : Char) (rest : List Char)
    (hd : isOctDigit d = true) (he : isOctDigit e = true) (hf : isOctDigit f = false) :
    decodeF (fuel + 1) ('\\' :: d :: e :: f :: rest)
      = (decodeF fuel (f :: rest)).map (fun t => (8 * octVal d + octVal e) :: t) := by
  simp [decodeF, hd, he, hf]

lemma decodeF_cons_oct1 (fuel : Nat) (d e : Char) (rest : List Char)
    (hd : isOctDigit d = true) (he : isOctDigit e = false) :
    decodeF (fuel + 1) ('\\' :: d :: e :: rest)
      = (decodeF fuel (e :: rest)).map (fun t => octVal d :: t) := by
  simp [decodeF, hd, he]

lemma decodeF_succ : ∀ (fuel : Nat) (s : List Char), s.length ≤ fuel →
    decodeF (fuel + 1) s = decodeF fuel s := by
  intro fuel
  induction fuel with
  | zero =>
    intro s hs
    have : s = [] := List.length_eq_zero.mp (Nat.le_zero.mp hs)
    subst this
    rfl
  | succ n ih =>
    intro s hs
    match s with
    | [] => rfl
    | c :: cs =>
      have hcs : cs.length ≤ n := by simpa using hs
      by_cases hc : (c == '\\') = true
      · have hc' : c = '\\' := by simpa using hc
        subst hc'
        cases cs with
        | nil => simp [decodeF]
        | cons d ds =>
          have hds : ds.length ≤ n := Nat.le_of_succ_le (by simpa using hcs)
          by_cases hd : isOctDigit d = true
          · cases ds with
            | nil => simp [decodeF, hd]
            | cons e ds2 =>
              have hds2 : ds2.length ≤ n := Nat.le_of_succ_le (by simpa using hds)
              by_cases he : isOctDigit e = true
              · cases ds2 with
                | nil => simp [decodeF, hd, he]
                | cons f ds3 =>
                  have hds3 : ds3.length ≤ n := Nat.le_of_succ_le (by simpa using hds2)
                  by_cases hf : isOctDigit f = true
                  · rw [decodeF_cons_oct (n + 1) d e f ds3 hd he hf,
                      decodeF_cons_oct n d e f ds3 hd he hf, ih ds3 hds3]
                  · have hf' : isOctDigit f = false := by simpa using hf
                    rw [decodeF_cons_oct2 (n + 1) d e f ds3 hd he hf',
                      decodeF_cons_oct2 n d e f ds3 hd he hf', ih (f :: ds3) hds2]
              · have he' : isOctDigit e = false := by simpa using he
                rw [decodeF_cons_oct1 (n + 1) d e ds2 hd he',
                  decodeF_cons_oct1 n d e ds2 hd he', ih (e :: ds2) hds]
          · have hd' : isOctDigit d = false := by simpa using hd
            cases hV : escCharVal d with
            | some v =>
              rw [decodeF_cons_named (n + 1) d v ds hd' hV,
                decodeF_cons_named n d v ds hd' hV, ih ds hds]
            | none => simp [decodeF, hd', hV]
      · have hc' : (c == '\\') = false := by simpa using hc
        rw [decodeF_cons_plain (n + 1) c cs hc',
          decodeF_cons_plain n c cs hc', ih cs hcs]

lemma decodeF_of_le (s : List Char) : ∀ (fuel : Nat), s.length ≤ fuel →
    decodeF fuel s = decodeF s.length s := by
  intro fuel h
  induction fuel, h using Nat.le_induction with
  | base => rfl
  | succ n hn ih => rw [decodeF_succ n s hn, ih]

lemma decodeC_cons_plain (c : Char) (rest : List Char) (h : (c == '\\') = false) :
    decodeC (c :: rest) = (decodeC rest).map (fun t => c.toNat :: t) := by
  show decodeF (c :: rest).length (c :: rest) = _
  rw [List.length_cons, decodeF_cons_plain rest.length c rest h]
  rfl

lemma decodeC_cons_named (d : Char) (v : Nat) (rest : List Char)
    (hd : isOctDigit d = false) (hv : escCharVal d = some v) :
    decodeC ('\\' :: d :: rest) = (decodeC rest).map (fun t => v :: t) := by
  show decodeF ('\\' :: d :: rest).length ('\\' :: d :: rest) = _
  rw [List.length_cons, List.length_cons,
    decodeF_cons_named (rest.length + 1) d v rest hd hv,
    decodeF_of_le rest (rest.length + 1) (by omega)]
  rfl

lemma decodeC_cons_oct (d e f : Char) (rest : List Char)
    (hd : isOctDigit d = true) (he : isOctDigit e = true) (hf : isOctDigit f = true) :
    decodeC ('\\' :: d :: e :: f :: rest)
      = (decodeC rest).map
          (fun t => (64 * octVal d + 8 * octVal e + octVal f) :: t) := by
  show decodeF ('\\' :: d :: e :: f :: rest).length _ = _
  rw [List.length_cons, List.length_cons, List.length_cons, List.length_cons,
    decodeF_cons_oct (rest.length + 1 + 1 + 1) d e f rest hd he hf,
    decodeF_of_le rest (rest.length + 1 + 1 + 1) (by omega)]
  rfl

set_option maxRecDepth 8000 in
lemma escShapeOK_all : ∀ b, b < 256 → escShapeOK (escByte b) b = true := by
  decide

lemma decodeC_escByte (b : Nat) (hb : b < 256) (rest : List Char) :
    decodeC (escByte b ++ rest) = (decodeC rest).map (fun t => b :: t) := by
  have h := escShapeOK_all b hb
  cases hE : escByte b with
  | nil =>
    rw [hE] at h
    exact absurd h (by simp [escShapeOK])
  | cons a tl =>
    cases tl with
    | nil =>
      rw [hE] at h
      simp only [escShapeOK, Bool.and_eq_true, Bool.not_eq_true', beq_iff_eq] at h
      show decodeC (a :: rest) = _
      rw [decodeC_cons_plain a rest h.1, h.2]
    | cons d tl2 =>
      cases tl2 with
      | nil =>
        rw [hE] at h
        simp only [escShapeOK, Bool.and_eq_true, Bool.not_eq_true', beq_iff_eq] at h
        obtain ⟨⟨ha, hd⟩, hv⟩ := h
        subst ha
        show decodeC ('\\' :: d :: rest) = _
        rw [decodeC_cons_named d b rest hd hv]
      | cons d2 tl3 =>
        cases tl3 with
        | nil =>
          rw [hE] at h
          exact absurd h (by simp [escShapeOK])
        | cons d3 tl4 =>
          cases tl4 with
          | nil =>
            rw [hE] at h
            simp only [escShapeOK, Bool.and_eq_true, beq_iff_eq] at h
            obtain ⟨⟨⟨⟨ha, h1⟩, h2⟩, h3⟩, hval⟩ := h
            subst ha
            show decodeC ('\\' :: d :: d2 :: d3 :: rest) = _
            rw [decodeC_cons_oct d d2 d3 rest h1 h2 h3, hval]
          | cons x tl5 =>
            rw [hE] at h
            exact absurd h (by simp [escShapeOK])

set_option maxRecDepth 8000 in
lemma escByte_shape : ∀ b, b < 256 →
    isSinglePlain (escByte b) = true ∨ isNamedEsc (escByte b) = true
      ∨ isOct3Esc (escByte b) = true := by
  decide

lemma decodeC_escaped : ∀ (data : List Nat), (∀ b ∈ data, b < 256) →
    decodeC (escaped_chars data).flatten = some data
  | [], _ => rfl
  | b :: bs, h => by
    have hb : b < 256 := h b (by simp)
    have hbs : ∀ x ∈ bs, x < 256 := fun x hx => h x (by simp [hx])
    simp only [escaped_chars, List.map_cons, List.flatten_cons]
    rw [show (List.map escByte bs).flatten = (escaped_chars bs).flatten from rfl,
      decodeC_escByte b hb, decodeC_escaped bs hbs]
    rfl

/-- C9 counterexample: byte 10 (`\n`) is emitted as the two-character
named escape `\n`, which is neither a single plain character nor a
three-digit octal escape, contradicting the claimed emitted alphabet
of "printable character or `\NNN`". -/
theorem filepack_c9_counterexample :
    escaped_chars [10] = [['\\', 'n']]
      ∧ isSinglePlain ['\\', 'n'] = false
      ∧ isOct3Esc ['\\', 'n'] = false := by
  decide

/-- C9 (amended): for every byte sequence, each piece yielded by
`escaped_chars` is a single plain printable character (double quote,
single quote, question mark and backslash excluded from the plain
alphabet), a two-character named escape, or a three-digit octal
escape; and reading the concatenation of the pieces back as C
string-literal contents reproduces the source bytes exactly. -/
theorem filepack_c9_escape (data : List Nat) (h : ∀ b ∈ data, b < 256) :
    (∀ e ∈ escaped_chars data,
        isSinglePlain e = true ∨ isNamedEsc e = true ∨ isOct3Esc e = true)
      ∧ decodeC (escaped_chars data).flatten = some data := by
  constructor
  · intro e he
    simp only [escaped_chars, List.mem_map] at he
    obtain ⟨b, hb, rfl⟩ := he
    exact escByte_shape b (h b hb)
  · exact decodeC_escaped data h

/-- C9 witness: the escape round trip on a sample containing plain
characters, a named escape and two octal escapes. -/
theorem filepack_c9_witness :
    decodeC (escaped_chars [104, 105, 33, 10, 0, 255]).flatten
      = some [104, 105, 33, 10, 0, 255] :=
  (filepack_c9_escape [104, 105, 33, 10, 0, 255] (by decide)).2

end FilePack
